import Mathlib

/-!
# Runtime support header `headers/common.h` (namespace `taichi::Tlang`)

A shallow embedding of the vector primitives, the sparse child containers and
the kernel invocation context of `common.h`, followed by the properties that
are checked against it.

Conventions of the embedding.

* A 256-bit register (`__m256`, `__m256i`) is eight 32-bit lanes; a lane is
  its bit pattern, a natural number below `2 ^ 32`.  Lane `i` is bits
  `32 * i + 31 .. 32 * i`, which is also element `i` of `operator[]`.
* `float32x8` and `int32x8` share that representation, so the
  `reinterpret_cast`s between them are the identity on lanes.
* The AVX/AVX2 intrinsics are not part of the header; each one is given the
  lane semantics of its instruction as documented in the Intel intrinsics
  guide, in a definition that keeps the intrinsic's name.
* An operation whose C++ behaviour is undefined on some inputs returns
  `Option`, with `none` standing for undefined behaviour.
* `vec::operator[]` is `((T *)(&v))[i]`: it reaches into the register through
  an lvalue of the element type, which the aliasing rules of C++ leave
  undefined.  The functions that go through it take an `Aliasing` argument:
  `strict` is the language rule, `permissive` a build that defines the access.
* A virtual vector `VV<dim, T>` is a function on `Fin dim`; its `int32` lanes
  are integers, its `float32` lanes bit patterns.  Memory reached through a
  `T *` is a function from element addresses to `T`, memory reached through a
  `void *` a function from byte addresses to bytes.
* The value of a `float` is the rational number its bit pattern denotes, and
  the conversion instruction runs in the default rounding mode of `MXCSR`.
-/

namespace taichi.Tlang

/-! ## Lanes -/

/-- The signed value of a 32-bit pattern (two's complement), the value of an `int32`. -/
def toInt32 (w : Nat) : Int :=
  if w % 2 ^ 32 < 2 ^ 31 then ((w % 2 ^ 32 : Nat) : Int) else ((w % 2 ^ 32 : Nat) : Int) - 2 ^ 32

/-- The 32-bit pattern of an integer: its low 32 bits. -/
def ofInt32 (x : Int) : Nat := (x % 2 ^ 32).toNat

/-- The smallest `int32`. -/
def INT_MIN : Int := -2 ^ 31

/-- The pattern with all 32 bits set. -/
def allOnes : Nat := 0xFFFFFFFF

/-- The register type `__m256i`, and `__m256` seen as bit patterns: eight lanes. -/
abbrev m256 := Fin 8 → Nat

/-- The type `vec<int32, 8>`: one `__m256i`. -/
abbrev int32x8 := m256

/-- The type `vec<float32, 8>`: one `__m256`, each lane the bit pattern of a `float`. -/
abbrev float32x8 := m256

/-! ## Integer arithmetic on `int32x8` -/

/-- Intrinsic `_mm256_sub_epi32`: lane-wise `a - b`, truncated to 32 bits. -/
def _mm256_sub_epi32 (a b : m256) : m256 :=
  fun i => ofInt32 (toInt32 (a i) - toInt32 (b i))

/-- Intrinsic `_mm256_mullo_epi32`: lane-wise low 32 bits of the 64-bit signed product. -/
def _mm256_mullo_epi32 (a b : m256) : m256 :=
  fun i => ofInt32 (toInt32 (a i) * toInt32 (b i))

/-- Function `sub` of `DEFINE_BINARY_OP(int32x8, sub, _mm256_sub_epi32)`. -/
def sub (a b : int32x8) : int32x8 := _mm256_sub_epi32 a b

/-- Function `mul` of `DEFINE_BINARY_OP(int32x8, mul, _mm256_mullo_epi32)`. -/
def mul (a b : int32x8) : int32x8 := _mm256_mullo_epi32 a b

/-- The C++ expression `x / y` on `int`: truncating division, undefined for
`y = 0` and for `INT_MIN / -1`. -/
def cppDiv (x y : Int) : Option Int :=
  if y = 0 ∨ (x = INT_MIN ∧ y = -1) then none else some (Int.tdiv x y)

/-- What a build makes of an access to a register object (`__m256i`, `__m256`)
through an lvalue of its element type, as in `((T *)(&v))[i]`. -/
inductive Aliasing where
  /-- The aliasing rules of C++: the object is not of the element type, so the
  access is undefined, whatever the index. -/
  | strict
  /-- A build that gives the access a meaning (`-fno-strict-aliasing`, or no
  optimisation): it reaches lane `i` of the register. -/
  | permissive
  deriving DecidableEq

/-- Member `vec<T, 8>::operator[](int i)`, read: `((T *)(&v))[i]`, the register
`v` accessed through an lvalue of type `T`. -/
def vec_at (al : Aliasing) (v : m256) (i : Nat) : Option Nat :=
  match al with
  | .strict => none
  | .permissive => if h : i < 8 then some (v ⟨i, h⟩) else none

/-- Member `vec<T, 8>::operator[](int i)`, assigned to: `((T *)(&v))[i] = x`; the
register afterwards. -/
def vec_assign (al : Aliasing) (v : m256) (i : Nat) (x : Nat) : Option m256 :=
  match al with
  | .strict => none
  | .permissive => if h : i < 8 then some (Function.update v ⟨i, h⟩ x) else none

/-- The loop of `div`: lanes `i, i+1, ..` up to 8 are computed in order and
written to `ret`, each `a[i]`, `b[i]` and `ret[i]` being an access through
`operator[]`. -/
def divLoop (al : Aliasing) (a b : int32x8) : Nat → Nat → int32x8 → Option int32x8
  | 0, _, ret => some ret
  | fuel + 1, i, ret =>
    if i < 8 then
      match vec_at al a i, vec_at al b i with
      | some x, some y =>
        match cppDiv (toInt32 x) (toInt32 y) with
        | none => none
        | some q =>
          match vec_assign al ret i (ofInt32 q) with
          | none => none
          | some ret' => divLoop al a b fuel (i + 1) ret'
      | _, _ => none
    else some ret

/-- Function `div(vec<int32, dim> a, vec<int32, dim> b)` at `dim = 8`:
`for (i = 0; i < dim; i++) ret[i] = a[i] / b[i];` on a `ret` that starts
uninitialised (`ret0`). -/
def div (al : Aliasing) (ret0 : int32x8) (a b : int32x8) : Option int32x8 :=
  divLoop al a b 8 0 ret0

/-- Function `mod(vec<T, dim> a, vec<T, dim> b)` at `T = int32`, `dim = 8`:
`return sub(a, mul(div(a, b), b));`. -/
def mod (al : Aliasing) (ret0 : int32x8) (a b : int32x8) : Option int32x8 :=
  match div al ret0 a b with
  | none => none
  | some q => some (sub a (mul q b))

/-! ## Comparison and selection on 256-bit registers -/

/-- The lane is the bit pattern of a NaN: exponent field all ones, fraction non-zero. -/
def isNaN32 (w : Nat) : Prop := (w / 2 ^ 23) % 256 = 255 ∧ w % 2 ^ 23 ≠ 0

instance (w : Nat) : Decidable (isNaN32 w) := by unfold isNaN32; infer_instance

/-- The lane is the bit pattern of `+0.0` or `-0.0`: everything but the sign bit is zero. -/
def isZero32 (w : Nat) : Prop := w % 2 ^ 31 = 0

instance (w : Nat) : Decidable (isZero32 w) := by unfold isZero32; infer_instance

/-- IEEE 754 equality of two `float`s given by their bit patterns (default
`MXCSR`, denormals not flushed): neither is a NaN, and the patterns agree or
both are a zero.  Apart from the two zeros, distinct patterns of non-NaN
`float`s are distinct values. -/
def floatEq (x y : Nat) : Prop :=
  ¬ isNaN32 x ∧ ¬ isNaN32 y ∧ (x % 2 ^ 32 = y % 2 ^ 32 ∨ (isZero32 x ∧ isZero32 y))

instance (x y : Nat) : Decidable (floatEq x y) := by unfold floatEq; infer_instance

/-- Intrinsic `_mm256_cmp_ps(a, b, _CMP_NEQ_UQ)`: a lane is all ones when the two
`float`s are unordered (one is a NaN) or not equal, and zero otherwise. -/
def _mm256_cmp_ps_NEQ_UQ (a b : m256) : m256 :=
  fun i => if floatEq (a i) (b i) then 0 else allOnes

/-- Intrinsic `_mm256_cmpgt_epi32`: a lane is all ones when `a[i] > b[i]` as
signed 32-bit integers, and zero otherwise. -/
def _mm256_cmpgt_epi32 (a b : m256) : m256 :=
  fun i => if toInt32 (a i) > toInt32 (b i) then allOnes else 0

/-- Intrinsic `_mm256_blendv_ps(a, b, mask)`: a lane is taken from `b` when the
most significant bit of the mask lane is set, and from `a` otherwise. -/
def _mm256_blendv_ps (a b mask : m256) : m256 :=
  fun i => if (mask i / 2 ^ 31) % 2 = 1 then b i else a i

/-- Function `cmp_ne(float32x8 a, float32x8 b)`. -/
def cmp_ne_float32x8 (a b : float32x8) : int32x8 :=
  let ret := _mm256_cmp_ps_NEQ_UQ a b
  ret

/-- Function `cmp_ne(int32x8 a, int32x8 b)`: both arguments are reinterpreted as
`float32x8` and compared with `_mm256_cmp_ps(.., _CMP_NEQ_UQ)`. -/
def cmp_ne_int32x8 (a b : int32x8) : int32x8 :=
  let ret := _mm256_cmp_ps_NEQ_UQ a b
  ret

/-- Function `cmp_lt(int32x8 a, int32x8 b)`: `_mm256_cmpgt_epi32(b, a)`. -/
def cmp_lt_int32x8 (a b : int32x8) : int32x8 :=
  let ret := _mm256_cmpgt_epi32 b a
  ret

/-- Function `select(int32x8 mask, float32x8 true_val, float32x8 false_val)`. -/
def select_float32x8 (mask : int32x8) (true_val false_val : float32x8) : float32x8 :=
  _mm256_blendv_ps false_val true_val mask

/-- Function `select(int32x8 mask, int32x8 true_val, int32x8 false_val)`. -/
def select_int32x8 (mask : int32x8) (true_val false_val : int32x8) : int32x8 :=
  let ret := _mm256_blendv_ps false_val true_val mask
  ret

/-! ## Memory, `load` and `store` -/

/-- Memory: a byte at every address.  Addresses are not bounds-checked, as in
the header; the caller owns the validity of the ranges it passes. -/
abbrev Mem := Nat → Nat

/-- Every cell of the memory holds a byte. -/
def Mem.valid (m : Mem) : Prop := ∀ p, m p < 256

/-- The 32-bit element stored at byte address `addr` (little endian). -/
def readLane (m : Mem) (addr : Nat) : Nat :=
  m addr + 256 * m (addr + 1) + 65536 * m (addr + 2) + 16777216 * m (addr + 3)

/-- Byte `k` (`0..3`) of a 32-bit pattern. -/
def byteOf (w k : Nat) : Nat := (w / 256 ^ k) % 256

/-- Intrinsic `_mm256_loadu_ps`: the 256 bits at `addr`, no alignment required. -/
def _mm256_loadu_ps (m : Mem) (addr : Nat) : m256 :=
  fun i => readLane m (addr + 4 * i.val)

/-- Intrinsic `_mm256_loadu_si256`: the 256 bits at `addr`, no alignment required. -/
def _mm256_loadu_si256 (m : Mem) (addr : Nat) : m256 :=
  fun i => readLane m (addr + 4 * i.val)

/-- The memory after 256 bits are written at `addr`: byte `j` of the 32 comes
from lane `j / 4`, byte `j % 4`. -/
def write256 (m : Mem) (addr : Nat) (a : m256) : Mem :=
  fun p =>
    if h : addr ≤ p ∧ p < addr + 32 then
      byteOf (a ⟨(p - addr) / 4, by omega⟩) ((p - addr) % 4)
    else m p

/-- Intrinsic `_mm256_storeu_ps`: writes the 256 bits of `a` at `addr`. -/
def _mm256_storeu_ps (m : Mem) (addr : Nat) (a : m256) : Mem := write256 m addr a

/-- Intrinsic `_mm256_storeu_si256`: writes the 256 bits of `a` at `addr`. -/
def _mm256_storeu_si256 (m : Mem) (addr : Nat) (a : m256) : Mem := write256 m addr a

/-- Function `load<float32, 8>(const void *addr)`. -/
def load_float32x8 (m : Mem) (addr : Nat) : float32x8 := _mm256_loadu_ps m addr

/-- Function `load<int32, 8>(const void *addr)`. -/
def load_int32x8 (m : Mem) (addr : Nat) : int32x8 := _mm256_loadu_si256 m addr

/-- Function `store<float32, 8>(const float32x8 &v, const void *addr)`: the memory afterwards. -/
def store_float32x8 (m : Mem) (v : float32x8) (addr : Nat) : Mem := _mm256_storeu_ps m addr v

/-- Function `store<int32, 8>(const int32x8 &v, const void *addr)`: the memory afterwards. -/
def store_int32x8 (m : Mem) (v : int32x8) (addr : Nat) : Mem := _mm256_storeu_si256 m addr v

/-- The type `vec<T, 1>` for `T` one of `float32`, `int32`: the scalar itself,
as a 32-bit pattern. -/
abbrev vec1 := Nat

/-- Modelled from the spec: `load<T, 1>`, of which the header has only the
declaration of the primary template `load<T, dim>(const void *)`.  The spec:
"reads `width` contiguous elements of `T` starting at `address`", here one
element of four bytes. -/
def load_x1 (m : Mem) (addr : Nat) : vec1 := readLane m addr

/-- Modelled from the spec: `store<T, 1>`, of which the header has only the
declaration of the primary template `store<T, dim>(const vec<T, dim> &, const void *)`.
The spec makes it symmetric to `load`: it writes the one element at `address`. -/
def store_x1 (m : Mem) (v : vec1) (addr : Nat) : Mem :=
  fun p => if addr ≤ p ∧ p < addr + 4 then byteOf v (p - addr) else m p

/-- The buffer of `width` elements at `dst` in memory `m'` is a copy of the one
at `src` in memory `m`, element for element and byte for byte, and when the two
buffers do not overlap the bytes of `src` are the same in `m'` as in `m`. -/
def CopiesBuffer (width : Nat) (m m' : Mem) (src dst : Nat) : Prop :=
  (∀ i, i < width → readLane m' (dst + 4 * i) = readLane m (src + 4 * i)) ∧
  (∀ j, j < 4 * width → m' (dst + j) = m (src + j)) ∧
  (dst + 4 * width ≤ src ∨ src + 4 * width ≤ dst →
    ∀ j, j < 4 * width → m' (src + j) = m (src + j))

/-! ## Kernel invocation context -/

/-- Constant `static constexpr int max_num_buffers = 16`. -/
abbrev Context.max_num_buffers : Nat := 16

/-- Constant `static constexpr int max_num_parameters = 16`. -/
abbrev Context.max_num_parameters : Nat := 16

/-- Constant `static constexpr int max_num_ranges = 16`. -/
abbrev Context.max_num_ranges : Nat := 16

/-- The struct `Context`.  A `Buffer` (`void *`) is its address, with `0` the
null pointer; a parameter is the 64-bit pattern of the `double`; a range is a
`uint64`. -/
structure Context where
  /-- Member `Buffer buffers[max_num_buffers]`. -/
  buffers : Fin Context.max_num_buffers → Nat
  /-- Member `double parameters[max_num_parameters]`. -/
  parameters : Fin Context.max_num_parameters → Nat
  /-- Member `uint64 ranges[max_num_ranges]`. -/
  ranges : Fin Context.max_num_ranges → Nat

namespace Context

/-- Constructor `Context()`: the three `memset(.., 0, sizeof ..)` calls. -/
def new : Context :=
  { buffers := fun _ => 0, parameters := fun _ => 0, ranges := fun _ => 0 }

/-- Constructor `Context(void *x, void *y, void *z, uint64 n) : Context()`. -/
def new4 (x y z n : Nat) : Context :=
  let c := Context.new
  let c := { c with buffers := Function.update c.buffers 0 x }
  let c := { c with buffers := Function.update c.buffers 1 y }
  let c := { c with buffers := Function.update c.buffers 2 z }
  let c := { c with ranges := Function.update c.ranges 0 n }
  c

/-- Member `get_buffer<T>(int i)`: `reinterpret_cast<T *>(buffers[i])`, the same
address; an index outside the array is undefined. -/
def get_buffer (c : Context) (i : Int) : Option Nat :=
  if h : 0 ≤ i ∧ i < max_num_buffers then some (c.buffers ⟨i.toNat, by omega⟩) else none

/-- Member `get_range(int i)`: `ranges[i]`; an index outside the array is undefined. -/
def get_range (c : Context) (i : Int) : Option Nat :=
  if h : 0 ≤ i ∧ i < max_num_ranges then some (c.ranges ⟨i.toNat, by omega⟩) else none

end Context

/-! ## Sparse child container `indirect` -/

/-- The struct `indirect<max_n>`: `int children[max_n]` and `std::atomic<int> n`. -/
structure indirect (max_n : Nat) where
  /-- Member `int children[max_n]`. -/
  children : Fin max_n → Int
  /-- Member `std::atomic<int> n`. -/
  n : Int

namespace indirect

variable {max_n : Nat}

/-- Constructor `indirect() : n(0)`: the counter is zero and `children` is left
uninitialised, so it holds whatever was there (`garbage`). -/
def new (garbage : Fin max_n → Int) : indirect max_n :=
  { children := garbage, n := 0 }

/-- Member `get_n()`. -/
def get_n (s : indirect max_n) : Int := s.n

/-- Member `look_up(int i)`: `&children[i]`, the slot pointed to; an index outside the
array gives no slot. -/
def look_up (_s : indirect max_n) (i : Int) : Option (Fin max_n) :=
  if h : 0 ≤ i ∧ i < max_n then some ⟨i.toNat, by omega⟩ else none

/-- The value `*p` of a pointer returned by `look_up`. -/
def deref (s : indirect max_n) (p : Option (Fin max_n)) : Option Int :=
  p.map s.children

/-- Member `touch(int i)`: `children[n++] = i;`.  The post-increment yields the old
counter and stores the incremented one, wrapped to `int`; a write outside the
array is undefined.  The two `printf` calls only write to the standard output
and leave the container as it is. -/
def touch (s : indirect max_n) (i : Int) : Option (indirect max_n) :=
  let old := s.n
  let n' := toInt32 (ofInt32 (s.n + 1))
  if h : 0 ≤ old ∧ old < max_n then
    some { children := Function.update s.children ⟨old.toNat, by omega⟩ i, n := n' }
  else none

/-- Member `clear()`: `n.store(0)`. -/
def clear (s : indirect max_n) : indirect max_n :=
  { s with n := 0 }

/-- The calls `touch(i_0); touch(i_1); ..` in that order. -/
def touchAll (s : indirect max_n) : List Int → Option (indirect max_n)
  | [] => some s
  | i :: rest =>
    match s.touch i with
    | none => none
    | some s' => touchAll s' rest

end indirect

/-! ## `touch` from concurrent callers -/

/-- Where one call of `touch` stands.  The statement `children[n++] = i` makes
two accesses to the shared container: the atomic post-increment of `n`, which
yields the slot, and then the store into that slot. -/
inductive TouchPc where
  /-- Nothing done yet. -/
  | start
  /-- The post-increment has yielded `slot`; the store is still to come. -/
  | reserved (slot : Int)
  /-- The store into `slot` is done. -/
  | done (slot : Int)
  deriving DecidableEq

/-- The slot a call has been given, if it has one yet. -/
def TouchPc.slot : TouchPc → Option Int
  | .start => none
  | .reserved s => some s
  | .done s => some s

/-- The number of accesses a call still has to make. -/
def TouchPc.remaining : TouchPc → Nat
  | .start => 2
  | .reserved _ => 1
  | .done _ => 0

/-- One container shared by `k` callers, each inside its own call of `touch`. -/
structure Touching (max_n k : Nat) where
  /-- The container. -/
  shared : indirect max_n
  /-- Where each caller stands. -/
  pc : Fin k → TouchPc

namespace Touching

variable {max_n k : Nat}

/-- The `k` calls are about to start on container `s`. -/
def init (s : indirect max_n) : Touching max_n k :=
  { shared := s, pc := fun _ => TouchPc.start }

/-- Caller `t`, whose call is `touch(args t)`, makes its next access.
`n++` on the `std::atomic<int>` is one indivisible read-modify-write; the
store `children[slot] = i` follows as a separate access and is undefined
outside the array.  A call that is done makes no further access. -/
def step (args : Fin k → Int) (σ : Touching max_n k) (t : Fin k) : Option (Touching max_n k) :=
  match σ.pc t with
  | .start =>
    some { shared := { σ.shared with n := toInt32 (ofInt32 (σ.shared.n + 1)) },
           pc := Function.update σ.pc t (TouchPc.reserved σ.shared.n) }
  | .reserved slot =>
    if h : 0 ≤ slot ∧ slot < max_n then
      some { shared := { σ.shared with
                children := Function.update σ.shared.children ⟨slot.toNat, by omega⟩ (args t) },
             pc := Function.update σ.pc t (TouchPc.done slot) }
    else none
  | .done _ => none

/-- An interleaving is the order in which the callers make their accesses;
`run` performs them one after the other. -/
def run (args : Fin k → Int) (σ : Touching max_n k) : List (Fin k) → Option (Touching max_n k)
  | [] => some σ
  | t :: rest =>
    match step args σ t with
    | none => none
    | some σ' => run args σ' rest

/-- The invariant of the interleaved calls: the counter is the number of calls
that have their slot, the slots given out lie below the counter and are
pairwise distinct, and a call that is done has its argument in its slot. -/
structure Inv (args : Fin k → Int) (σ : Touching max_n k) : Prop where
  /-- The counter counts the calls past their increment. -/
  counter : σ.shared.n = ((Finset.univ.filter (fun t => σ.pc t ≠ TouchPc.start)).card : Int)
  /-- Slots lie below the counter. -/
  bound : ∀ t s, (σ.pc t).slot = some s → 0 ≤ s ∧ s < σ.shared.n
  /-- No slot is given twice. -/
  distinct : ∀ t t' s, (σ.pc t).slot = some s → (σ.pc t').slot = some s → t = t'
  /-- A finished call has stored its argument. -/
  stored : ∀ t s, σ.pc t = TouchPc.done s → ∀ h : 0 ≤ s ∧ s < (max_n : Int),
    σ.shared.children ⟨s.toNat, by omega⟩ = args t

end Touching

/-! ## `min`, `max` and lane permutation on `int32x8` -/

/-- Every lane of the register is a 32-bit pattern. -/
def m256.valid (a : m256) : Prop := ∀ i, a i < 2 ^ 32

/-- Intrinsic `_mm256_min_epi32`: lane-wise minimum of signed 32-bit integers. -/
def _mm256_min_epi32 (a b : m256) : m256 :=
  fun i => ofInt32 (Min.min (toInt32 (a i)) (toInt32 (b i)))

/-- Intrinsic `_mm256_max_epi32`: lane-wise maximum of signed 32-bit integers. -/
def _mm256_max_epi32 (a b : m256) : m256 :=
  fun i => ofInt32 (Max.max (toInt32 (a i)) (toInt32 (b i)))

/-- Function `min<int32, 8>(int32x8 a, int32x8 b)`, also
`DEFINE_BINARY_OP(int32x8, min, _mm256_min_epi32)`. -/
def min_int32x8 (a b : int32x8) : int32x8 := _mm256_min_epi32 a b

/-- Function `max<int32, 8>(int32x8 a, int32x8 b)`, also
`DEFINE_BINARY_OP(int32x8, max, _mm256_max_epi32)`. -/
def max_int32x8 (a b : int32x8) : int32x8 := _mm256_max_epi32 a b

/-- Intrinsic `_mm256_set_epi32(e7, e6, e5, e4, e3, e2, e1, e0)`: lane `k` holds `e_k`. -/
def _mm256_set_epi32 (e7 e6 e5 e4 e3 e2 e1 e0 : Int) : m256 :=
  fun k => ofInt32 (![e0, e1, e2, e3, e4, e5, e6, e7] k)

/-- Intrinsic `_mm256_permutevar8x32_epi32(a, idx)`: lane `k` of the result is
the lane of `a` selected by the low three bits of lane `k` of `idx`. -/
def _mm256_permutevar8x32_epi32 (a idx : m256) : m256 :=
  fun k => a ⟨idx k % 8, Nat.mod_lt _ (by norm_num)⟩

/-- Intrinsic `_mm256_permutevar8x32_ps(a, idx)`: as `_mm256_permutevar8x32_epi32`,
on a register of `float`s. -/
def _mm256_permutevar8x32_ps (a idx : m256) : m256 :=
  fun k => a ⟨idx k % 8, Nat.mod_lt _ (by norm_num)⟩

/-- Function `shuffle8x32<i0, i1, i2, i3, i4, i5, i6, i7>(int32x8 a)`. -/
def shuffle8x32_int32x8 (i0 i1 i2 i3 i4 i5 i6 i7 : Int) (a : int32x8) : int32x8 :=
  _mm256_permutevar8x32_epi32 a (_mm256_set_epi32 i7 i6 i5 i4 i3 i2 i1 i0)

/-- Function `shuffle8x32<i0, i1, i2, i3, i4, i5, i6, i7>(float32x8 a)`. -/
def shuffle8x32_float32x8 (i0 i1 i2 i3 i4 i5 i6 i7 : Int) (a : float32x8) : float32x8 :=
  _mm256_permutevar8x32_ps a (_mm256_set_epi32 i7 i6 i5 i4 i3 i2 i1 i0)

/-! ## Virtual vectors and the group adapter -/

/-- The struct `VV<dim, T>`: `T d[dim]`, element `i` being `operator[](i)`. -/
abbrev VV (dim : Nat) (T : Type) := Fin dim → T

/-- The C++ expression `x % y` on `int`: the remainder of the truncating
division, undefined where `x / y` is. -/
def cppMod (x y : Int) : Option Int :=
  if y = 0 ∨ (x = INT_MIN ∧ y = -1) then none else some (Int.tmod x y)

/-- The struct `SlowAdapter<T_, num_groups, num_inputs, input_group_size>`:
`VV<input_dim, T> inputs[num_inputs]` with
`input_dim = num_groups * input_group_size`. -/
structure SlowAdapter (T : Type) (num_groups num_inputs input_group_size : Nat) where
  /-- Member `VV<input_dim, T> inputs[num_inputs]`. -/
  inputs : Fin num_inputs → VV (num_groups * input_group_size) T

namespace SlowAdapter

variable {T : Type} {num_groups num_inputs input_group_size : Nat}

/-- Constant `static constexpr int input_dim = num_groups * input_group_size`. -/
abbrev input_dim (_s : SlowAdapter T num_groups num_inputs input_group_size) : Nat :=
  num_groups * input_group_size

/-- Constant `static constexpr int num_outputs = 8`. -/
abbrev num_outputs (_s : SlowAdapter T num_groups num_inputs input_group_size) : Nat := 8

/-- Member `set<i>(const VV<input_dim, T> &v)`: `inputs[i] = v`, with
`static_assert(0 <= i && i < num_inputs)`. -/
def set_static (s : SlowAdapter T num_groups num_inputs input_group_size)
    (i : Fin num_inputs) (v : VV (num_groups * input_group_size) T) :
    SlowAdapter T num_groups num_inputs input_group_size :=
  { inputs := Function.update s.inputs i v }

/-- Member `set(int i, const VV<input_dim, T> &v)`: `inputs[i] = v`; an index
outside the array is undefined. -/
def set (s : SlowAdapter T num_groups num_inputs input_group_size)
    (i : Int) (v : VV (num_groups * input_group_size) T) :
    Option (SlowAdapter T num_groups num_inputs input_group_size) :=
  if h : 0 ≤ i ∧ i < num_inputs then
    some { inputs := Function.update s.inputs ⟨i.toNat, by omega⟩ v }
  else none

/-- Member `shuffle()`: the whole body is commented out, so the call does nothing. -/
def shuffle (s : SlowAdapter T num_groups num_inputs input_group_size) :
    SlowAdapter T num_groups num_inputs input_group_size :=
  s

/-- Member `get_input<i>()`: `inputs[i]`, with `static_assert(0 <= i && i < num_inputs)`. -/
def get_input (s : SlowAdapter T num_groups num_inputs input_group_size)
    (i : Fin num_inputs) : VV (num_groups * input_group_size) T :=
  s.inputs i

/-- Member `operator[](int i)`: `inputs[i / input_dim][i % input_dim]`, with the
`int` division and remainder of C++; undefined when `input_dim` is zero or
either index falls outside its array. -/
def get (s : SlowAdapter T num_groups num_inputs input_group_size) (i : Int) : Option T :=
  match cppDiv i (num_groups * input_group_size : Nat), cppMod i (num_groups * input_group_size : Nat) with
  | some q, some r =>
    if h : (0 ≤ q ∧ q < num_inputs) ∧ (0 ≤ r ∧ r < (num_groups * input_group_size : Nat)) then
      some (s.inputs ⟨q.toNat, by omega⟩ ⟨r.toNat, by omega⟩)
    else none
  | _, _ => none

end SlowAdapter

/-! ## Right shift -/

/-- A loop `for (i = 0; i < dim; i++) c[i] = f(i);` over a virtual vector: the
vector of the values, undefined when one of the iterations is. -/
def VV.tabulate {dim : Nat} {T : Type} (f : Fin dim → Option T) : Option (VV dim T) :=
  if h : ∀ i, (f i).isSome then some (fun i => (f i).get (h i)) else none

/-- The C++ expression `x >> b` on `int`: undefined for a negative count and for
a count of 32 or more; a negative `x` is shifted arithmetically (the sign is
kept), as GCC and Clang do and C++20 requires. -/
def cppShr (x b : Int) : Option Int :=
  if 0 ≤ b ∧ b < 32 then some (x >>> b.toNat) else none

/-- Function `shr(const VV<dim, T> &a, int b)` at `T = int32`:
`for (i = 0; i < dim; i++) c[i] = a[i] >> b;`. -/
def shr_VV {dim : Nat} (a : VV dim Int) (b : Int) : Option (VV dim Int) :=
  VV.tabulate (fun i => cppShr (a i) b)

/-- Intrinsic `_mm256_srli_epi32(a, imm8)`: each lane shifted right by the count
`imm8`, the whole `int` read as an unsigned number, while shifting in zeros; a
count above 31 gives zero. -/
def _mm256_srli_epi32 (a : m256) (imm8 : Int) : m256 :=
  fun i => if ofInt32 imm8 > 31 then 0 else (a i % 2 ^ 32) / 2 ^ ofInt32 imm8

/-- Function `shr(int32x8 a, int b)`. -/
def shr_int32x8 (a : int32x8) (b : Int) : int32x8 := _mm256_srli_epi32 a b

/-! ## Indexed `load` and `store` -/

/-- Memory as a `T *` sees it: the element of type `T` at each element address.
As with `Mem`, addresses are not bounds-checked. -/
abbrev Buf (T : Type) := Int → T

/-- Function `load(T *base_address, VV<dim, int> offsets)`:
`for (i = 0; i < dim; i++) ret[i] = *(base_address + offsets[i]);`. -/
def load_VV {dim : Nat} {T : Type} (m : Buf T) (base_address : Int) (offsets : VV dim Int) :
    VV dim T :=
  fun i => m (base_address + offsets i)

/-- Function `store(VV<dim, T> a, T *base_address, VV<dim, int> offsets)`:
`for (i = 0; i < dim; i++) *(base_address + offsets[i]) = a[i];`, one write
after the other in the order of the lanes; the memory afterwards. -/
def store_VV {dim : Nat} {T : Type} (m : Buf T) (a : VV dim T) (base_address : Int)
    (offsets : VV dim Int) : Buf T :=
  (List.finRange dim).foldl
    (fun m i => Function.update m (base_address + offsets i) (a i)) m

/-- The sign bit of a `float` pattern. -/
def signBit32 (w : Nat) : Nat := (w / 2 ^ 31) % 2

/-- The exponent field of a `float` pattern. -/
def expField32 (w : Nat) : Nat := (w / 2 ^ 23) % 256

/-- The fraction field of a `float` pattern. -/
def fracField32 (w : Nat) : Nat := w % 2 ^ 23

/-- The significand of a `float` as an integer: the fraction, with the implicit
leading one unless the number is subnormal. -/
def significand32 (w : Nat) : Nat :=
  if expField32 w = 0 then fracField32 w else 2 ^ 23 + fracField32 w

/-- The binary exponent of the last place of the significand: a finite `float`
is `± significand32 * 2 ^ ulpExp32`. -/
def ulpExp32 (w : Nat) : Int :=
  (if expField32 w = 0 then 1 else (expField32 w : Int)) - 150

/-- The `float` is a number, not an infinity or a NaN. -/
def isFinite32 (w : Nat) : Prop := expField32 w ≠ 255

instance (w : Nat) : Decidable (isFinite32 w) := by unfold isFinite32; infer_instance

/-- The value of a finite `float` given by its bit pattern, as a rational number. -/
def float32Value (w : Nat) : ℚ :=
  (if signBit32 w = 1 then -1 else 1) *
    (if 0 ≤ ulpExp32 w then (significand32 w : ℚ) * 2 ^ (ulpExp32 w).toNat
     else (significand32 w : ℚ) / 2 ^ (-ulpExp32 w).toNat)

/-- The integer nearest to `M / 2 ^ k`, the even one of the two when `M / 2 ^ k`
lies half way between them: the rounding mode "round to nearest (even)", which
is the default of `MXCSR`. -/
def roundShiftNearestEven (M k : Nat) : Nat :=
  if 2 * (M % 2 ^ k) > 2 ^ k ∨ (2 * (M % 2 ^ k) = 2 ^ k ∧ (M / 2 ^ k) % 2 = 1) then
    M / 2 ^ k + 1
  else M / 2 ^ k

/-- The instruction behind `_mm256_cvtps_epi32` on one lane: the `float` is
rounded to an integer in the current rounding mode, taken to be the default
one; a NaN, an infinity or a result outside `int32` gives the "integer
indefinite" pattern `0x80000000`. -/
def cvtps2dq (w : Nat) : Nat :=
  if expField32 w = 255 then 0x80000000
  else
    let mag : Nat :=
      if 0 ≤ ulpExp32 w then significand32 w * 2 ^ (ulpExp32 w).toNat
      else roundShiftNearestEven (significand32 w) (-ulpExp32 w).toNat
    let r : Int := if signBit32 w = 1 then -(mag : Int) else (mag : Int)
    if -2 ^ 31 ≤ r ∧ r < 2 ^ 31 then ofInt32 r else 0x80000000

/-- Intrinsic `_mm256_cvtps_epi32`: each `float` lane converted to `int32`. -/
def _mm256_cvtps_epi32 (a : m256) : m256 := fun i => cvtps2dq (a i)

/-- Function `cast<int32, float32, 8>(const float32x8 &v)`. -/
def cast_int32_float32x8 (v : float32x8) : int32x8 := _mm256_cvtps_epi32 v

/-- The C++ conversion `(int)x` of a `float`: the fraction is discarded
(truncation toward zero); undefined when `x` is not finite or the truncated
value is outside `int`. -/
def cppFloatToInt (w : Nat) : Option Int :=
  if expField32 w = 255 then none
  else
    let mag : Nat :=
      if 0 ≤ ulpExp32 w then significand32 w * 2 ^ (ulpExp32 w).toNat
      else significand32 w / 2 ^ (-ulpExp32 w).toNat
    let r : Int := if signBit32 w = 1 then -(mag : Int) else (mag : Int)
    if -2 ^ 31 ≤ r ∧ r < 2 ^ 31 then some r else none

/-- Function `cast<T, G, dim>(const VV<dim, G> &a)` at `T = int32`, `G = float32`:
`for (i = 0; i < dim; i++) c[i] = (T)a[i];`, the `float`s given by their bit
patterns. -/
def cast_VV_int32_float32 {dim : Nat} (a : VV dim Nat) : Option (VV dim Int) :=
  VV.tabulate (fun i => cppFloatToInt (a i))

/-- The integer `n` is `v` rounded to the nearest integer, a value half way
between two integers going to the even one. -/
def IsNearestTiesEven (v : ℚ) (n : Int) : Prop :=
  |(n : ℚ) - v| ≤ 1 / 2 ∧ (|(n : ℚ) - v| = 1 / 2 → n % 2 = 0)

/-- The integer `n` is `v` rounded to the nearest integer, a value half way
between two integers going to the one away from zero. -/
def IsNearestTiesAway (v : ℚ) (n : Int) : Prop :=
  |(n : ℚ) - v| ≤ 1 / 2 ∧ (|(n : ℚ) - v| = 1 / 2 → |v| < |(n : ℚ)|)

/-! # Properties -/

/-! ## Truncating division and `mod` -/

theorem tmod_lt_abs (x y : Int) (hy : y ≠ 0) : Int.tmod x y < |y| := by
  rcases lt_or_gt_of_ne hy with h | h
  · have := Int.tmod_lt_of_pos x (b := -y) (by omega)
    rw [Int.tmod_neg] at this
    rw [abs_of_neg h]; exact this
  · have := Int.tmod_lt_of_pos x h
    rw [abs_of_pos h]; exact this

theorem neg_tmod_eq (x y : Int) : Int.tmod (-x) y = -Int.tmod x y := by
  rw [Int.tmod_def, Int.tmod_def, Int.neg_tdiv]; ring

theorem sub_tdiv_mul (x y : Int) : x - Int.tdiv x y * y = Int.tmod x y := by
  have := Int.tmod_add_tdiv x y
  linarith [mul_comm (Int.tdiv x y) y]

theorem tdiv_mul_nonneg (x y : Int) (hx : 0 ≤ x) : 0 ≤ Int.tdiv x y * y := by
  rcases le_total 0 y with h | h
  · exact mul_nonneg (Int.tdiv_nonneg hx h) h
  · exact mul_nonneg_of_nonpos_of_nonpos (Int.tdiv_nonpos hx h) h

theorem tdiv_mul_nonpos (x y : Int) (hx : x ≤ 0) : Int.tdiv x y * y ≤ 0 := by
  have h := tdiv_mul_nonneg (-x) y (by omega)
  rw [Int.neg_tdiv] at h
  linarith [neg_mul (Int.tdiv (-x) y) y, neg_mul (Int.tdiv x y) y]

theorem tmod_nonpos (x y : Int) (hx : x ≤ 0) : Int.tmod x y ≤ 0 := by
  have h := Int.tmod_nonneg y (a := -x) (by omega)
  rw [neg_tmod_eq] at h
  omega

theorem neg_abs_lt_tmod (x y : Int) (hy : y ≠ 0) : -|y| < Int.tmod x y := by
  have h := tmod_lt_abs (-x) y hy
  rw [neg_tmod_eq] at h
  omega

theorem tdiv_range (x y : Int) (hx1 : -2 ^ 31 ≤ x) (hx2 : x < 2 ^ 31) (hy : y ≠ 0)
    (hov : ¬ (x = -2 ^ 31 ∧ y = -1)) :
    -2 ^ 31 ≤ Int.tdiv x y ∧ Int.tdiv x y < 2 ^ 31 := by
  have hn := Int.natAbs_tdiv x y
  have hd : x.natAbs.div y.natAbs = x.natAbs / y.natAbs := rfl
  rw [hd] at hn
  have hle : x.natAbs / y.natAbs ≤ x.natAbs := Nat.div_le_self _ _
  by_cases h1 : y.natAbs = 1
  · have hy1 : y = 1 ∨ y = -1 := by omega
    rcases hy1 with rfl | rfl
    · rw [Int.tdiv_one]; omega
    · rw [Int.tdiv_neg, Int.tdiv_one]; omega
  · have h2 : 2 ≤ y.natAbs := by omega
    have : x.natAbs / y.natAbs ≤ x.natAbs / 2 := Nat.div_le_div_left h2 (by norm_num)
    omega

theorem toInt32_ofInt32 (x : Int) (h1 : -2 ^ 31 ≤ x) (h2 : x < 2 ^ 31) :
    toInt32 (ofInt32 x) = x := by
  unfold toInt32 ofInt32
  have hnn : 0 ≤ x % 2 ^ 32 := Int.emod_nonneg _ (by norm_num)
  have hlt : x % 2 ^ 32 < 2 ^ 32 := Int.emod_lt_of_pos _ (by norm_num)
  have hc : ((x % 2 ^ 32).toNat : Int) = x % 2 ^ 32 := Int.toNat_of_nonneg hnn
  have hm : (x % 2 ^ 32).toNat % 2 ^ 32 = (x % 2 ^ 32).toNat := by
    apply Nat.mod_eq_of_lt
    omega
  rw [hm]
  split <;> omega

theorem toInt32_range (w : Nat) : -2 ^ 31 ≤ toInt32 w ∧ toInt32 w < 2 ^ 31 := by
  unfold toInt32
  have : w % 2 ^ 32 < 2 ^ 32 := Nat.mod_lt _ (by norm_num)
  split <;> omega

theorem cppDiv_eq_some (x y : Int) (hy : y ≠ 0) (hov : ¬ (x = INT_MIN ∧ y = -1)) :
    cppDiv x y = some (Int.tdiv x y) := by
  unfold cppDiv
  rw [if_neg]
  intro h
  rcases h with h | h
  · exact hy h
  · exact hov h

theorem vec_at_permissive (v : m256) (i : Fin 8) :
    vec_at Aliasing.permissive v i.val = some (v i) := by
  unfold vec_at
  simp only
  rw [dif_pos i.isLt]

theorem vec_assign_permissive (v : m256) (i : Fin 8) (x : Nat) :
    vec_assign Aliasing.permissive v i.val x = some (Function.update v i x) := by
  unfold vec_assign
  simp only
  rw [dif_pos i.isLt]

theorem divLoop_spec (a b : int32x8)
    (hb : ∀ i, toInt32 (b i) ≠ 0)
    (hov : ∀ i, ¬ (toInt32 (a i) = INT_MIN ∧ toInt32 (b i) = -1)) :
    ∀ (fuel i : Nat) (ret : int32x8), 8 ≤ i + fuel →
      ∃ r, divLoop Aliasing.permissive a b fuel i ret = some r ∧
        ∀ j : Fin 8, r j =
          if i ≤ j.val then ofInt32 (Int.tdiv (toInt32 (a j)) (toInt32 (b j))) else ret j := by
  intro fuel
  induction fuel with
  | zero =>
    intro i ret hi
    refine ⟨ret, rfl, fun j => ?_⟩
    have := j.isLt
    rw [if_neg (by omega)]
  | succ n ih =>
    intro i ret hi
    unfold divLoop
    by_cases h : i < 8
    · rw [if_pos h]
      have ha := vec_at_permissive a ⟨i, h⟩
      have hb' := vec_at_permissive b ⟨i, h⟩
      simp only at ha hb'
      rw [ha, hb']
      simp only
      rw [cppDiv_eq_some _ _ (hb ⟨i, h⟩) (hov ⟨i, h⟩)]
      simp only
      have hw := vec_assign_permissive ret ⟨i, h⟩
        (ofInt32 (Int.tdiv (toInt32 (a ⟨i, h⟩)) (toInt32 (b ⟨i, h⟩))))
      simp only at hw
      rw [hw]
      simp only
      obtain ⟨r, hr, hspec⟩ := ih (i + 1) (Function.update ret ⟨i, h⟩
        (ofInt32 (Int.tdiv (toInt32 (a ⟨i, h⟩)) (toInt32 (b ⟨i, h⟩))))) (by omega)
      refine ⟨r, hr, fun j => ?_⟩
      rw [hspec j]
      by_cases hj : i + 1 ≤ j.val
      · rw [if_pos hj, if_pos (by omega)]
      · rw [if_neg hj]
        by_cases hji : j = ⟨i, h⟩
        · subst hji
          simp
        · rw [Function.update_noteq hji, if_neg]
          intro hle
          apply hji
          apply Fin.ext
          simp only
          omega
    · rw [if_neg h]
      refine ⟨ret, rfl, fun j => ?_⟩
      have := j.isLt
      rw [if_neg (by omega)]

/-- In a build that defines the lane accesses of `operator[]`, `div` and `mod`
are the truncating quotient and its remainder in every lane. -/
theorem div_mod_lanes (ret0 a b : int32x8)
    (hb : ∀ i, toInt32 (b i) ≠ 0)
    (hov : ∀ i, ¬ (toInt32 (a i) = INT_MIN ∧ toInt32 (b i) = -1)) :
    ∃ q r, div Aliasing.permissive ret0 a b = some q ∧
      mod Aliasing.permissive ret0 a b = some r ∧ ∀ i,
      toInt32 (q i) = Int.tdiv (toInt32 (a i)) (toInt32 (b i)) ∧
      toInt32 (r i) = Int.tmod (toInt32 (a i)) (toInt32 (b i)) := by
  obtain ⟨q, hq, hspec⟩ := divLoop_spec a b hb hov 8 0 ret0 (by omega)
  refine ⟨q, sub a (mul q b), hq, ?_, fun i => ?_⟩
  · unfold mod div
    rw [hq]
  · have hqi : q i = ofInt32 (Int.tdiv (toInt32 (a i)) (toInt32 (b i))) := by
      rw [hspec i, if_pos (Nat.zero_le _)]
    obtain ⟨ha1, ha2⟩ := toInt32_range (a i)
    have hov' : ¬ (toInt32 (a i) = -2 ^ 31 ∧ toInt32 (b i) = -1) := hov i
    obtain ⟨hq1, hq2⟩ := tdiv_range _ _ ha1 ha2 (hb i) hov'
    have hmod := sub_tdiv_mul (toInt32 (a i)) (toInt32 (b i))
    have hsign : (0 ≤ toInt32 (a i) ∧ 0 ≤ Int.tdiv (toInt32 (a i)) (toInt32 (b i)) * toInt32 (b i)
          ∧ 0 ≤ Int.tmod (toInt32 (a i)) (toInt32 (b i))) ∨
        (toInt32 (a i) ≤ 0 ∧ Int.tdiv (toInt32 (a i)) (toInt32 (b i)) * toInt32 (b i) ≤ 0
          ∧ Int.tmod (toInt32 (a i)) (toInt32 (b i)) ≤ 0) := by
      rcases le_total 0 (toInt32 (a i)) with h | h
      · exact Or.inl ⟨h, tdiv_mul_nonneg _ _ h, Int.tmod_nonneg _ h⟩
      · exact Or.inr ⟨h, tdiv_mul_nonpos _ _ h, tmod_nonpos _ _ h⟩
    have hqv : toInt32 (q i) = Int.tdiv (toInt32 (a i)) (toInt32 (b i)) := by
      rw [hqi, toInt32_ofInt32 _ hq1 hq2]
    refine ⟨hqv, ?_⟩
    show toInt32 (ofInt32 (toInt32 (a i) - toInt32 (ofInt32 (toInt32 (q i) * toInt32 (b i))))) = _
    rw [hqv, toInt32_ofInt32 (Int.tdiv (toInt32 (a i)) (toInt32 (b i)) * toInt32 (b i))
      (by omega) (by omega), toInt32_ofInt32 _ (by omega) (by omega)]
    exact hmod

theorem indirect.deref_look_up {max_n : Nat} (s : indirect max_n) (i : Int)
    (h : 0 ≤ i ∧ i < max_n) :
    s.deref (s.look_up i) = some (s.children ⟨i.toNat, by omega⟩) := by
  unfold indirect.look_up indirect.deref
  rw [dif_pos h]
  rfl

theorem indirect.touch_eq {max_n : Nat} (hmax : max_n < 2 ^ 31) (s : indirect max_n) (i : Int)
    (h : 0 ≤ s.n ∧ s.n < max_n) :
    s.touch i = some { children := Function.update s.children ⟨s.n.toNat, by omega⟩ i,
                       n := s.n + 1 } := by
  unfold indirect.touch
  simp only
  rw [dif_pos h, toInt32_ofInt32 _ (by omega) (by omega)]

theorem indirect.touchAll_spec {max_n : Nat} (hmax : max_n < 2 ^ 31) :
    ∀ (is : List Int) (s : indirect max_n), 0 ≤ s.n → s.n + is.length ≤ max_n →
      ∃ s', s.touchAll is = some s' ∧ s'.n = s.n + is.length ∧
        (∀ (j : Nat) (hj : j < is.length),
          s'.deref (s'.look_up (s.n + j)) = some (is.get ⟨j, hj⟩)) ∧
        (∀ p : Fin max_n, (p.val : Int) < s.n → s'.children p = s.children p) := by
  intro is
  induction is with
  | nil =>
    intro s _ _
    refine ⟨s, rfl, by simp, ?_, fun _ _ => rfl⟩
    intro j hj
    simp at hj
  | cons i rest ih =>
    intro s h0 hlen
    simp only [List.length_cons, Nat.cast_add, Nat.cast_one] at hlen
    have hin : 0 ≤ s.n ∧ s.n < max_n := by omega
    have ht := indirect.touch_eq hmax s i hin
    obtain ⟨s', hrun, hn, hnew, hold⟩ :=
      ih { children := Function.update s.children ⟨s.n.toNat, by omega⟩ i, n := s.n + 1 }
        (by show 0 ≤ s.n + 1; omega) (by show s.n + 1 + (rest.length : Int) ≤ max_n; omega)
    simp only at hn hnew hold
    refine ⟨s', ?_, ?_, ?_, ?_⟩
    · unfold indirect.touchAll
      rw [ht]
      exact hrun
    · rw [hn]
      simp only [List.length_cons, Nat.cast_add, Nat.cast_one]
      omega
    · intro j hj
      cases j with
      | zero =>
        have hb : 0 ≤ s.n + ((0 : Nat) : Int) ∧ s.n + ((0 : Nat) : Int) < max_n := by omega
        rw [indirect.deref_look_up s' _ hb]
        have hp := hold ⟨(s.n + ((0 : Nat) : Int)).toNat, by omega⟩ (by simp only; omega)
        rw [hp]
        have hidx : (⟨(s.n + ((0 : Nat) : Int)).toNat, by omega⟩ : Fin max_n) =
            ⟨s.n.toNat, by omega⟩ := by
          apply Fin.ext
          simp
        rw [hidx, Function.update_same]
        rfl
      | succ j =>
        have hj' : j < rest.length := by simpa using hj
        have := hnew j hj'
        have hcast : s.n + ((j + 1 : Nat) : Int) = s.n + 1 + (j : Int) := by push_cast; ring
        rw [hcast, this]
        rfl
    · intro p hp
      rw [hold p (by omega)]
      apply Function.update_noteq
      intro hpe
      rw [hpe] at hp
      simp only at hp
      omega

/-- C2: on a freshly constructed `indirect<max_n>`, the calls `touch(i_0)`, ..,
`touch(i_{k-1})` with `k <= max_n` all succeed and leave `get_n() == k` and
`*look_up(j) == i_j` for every `j < k`. -/
theorem indirect_touch_sequence {max_n : Nat} (hmax : max_n < 2 ^ 31)
    (garbage : Fin max_n → Int) (is : List Int) (hk : is.length ≤ max_n) :
    ∃ s, (indirect.new garbage).touchAll is = some s ∧ s.get_n = is.length ∧
      ∀ (j : Nat) (hj : j < is.length),
        s.deref (s.look_up (j : Int)) = some (is.get ⟨j, hj⟩) := by
  obtain ⟨s, hrun, hn, hnew, _⟩ := indirect.touchAll_spec hmax is (indirect.new garbage)
    (le_refl _) (by show (0 : Int) + (is.length : Int) ≤ max_n; omega)
  refine ⟨s, hrun, ?_, ?_⟩
  · show s.n = _
    rw [hn]
    show (0 : Int) + _ = _
    omega
  · intro j hj
    have := hnew j hj
    have h0 : (indirect.new garbage).n + (j : Int) = (j : Int) := by
      show (0 : Int) + _ = _
      omega
    rw [h0] at this
    exact this

/-- C2 at a concrete input: three calls on a container of capacity four. -/
theorem indirect_touch_sequence_witness :
    ∃ s, (indirect.new (fun _ : Fin 4 => 99)).touchAll [5, 7, 9] = some s ∧
      s.get_n = ([5, 7, 9] : List Int).length ∧
      ∀ (j : Nat) (hj : j < ([5, 7, 9] : List Int).length),
        s.deref (s.look_up (j : Int)) = some (([5, 7, 9] : List Int).get ⟨j, hj⟩) :=
  indirect_touch_sequence (by norm_num) (fun _ : Fin 4 => 99) [5, 7, 9] (by decide)

/-- C3: whatever the state of an `indirect<max_n>` (with `max_n >= 1`, as an
array type requires), `clear()` makes `get_n()` return 0, and a following
`touch(i)` succeeds, stores `i` in slot 0 and makes `get_n()` return 1. -/
theorem indirect_clear_then_touch {max_n : Nat} (hpos : 0 < max_n) (hmax : max_n < 2 ^ 31)
    (s : indirect max_n) (i : Int) :
    s.clear.get_n = 0 ∧
    ∃ s', s.clear.touch i = some s' ∧ s'.deref (s'.look_up 0) = some i ∧ s'.get_n = 1 := by
  refine ⟨rfl, ?_⟩
  have hin : 0 ≤ s.clear.n ∧ s.clear.n < max_n := by
    show (0 : Int) ≤ 0 ∧ (0 : Int) < max_n
    omega
  refine ⟨_, indirect.touch_eq hmax s.clear i hin, ?_, ?_⟩
  · rw [indirect.deref_look_up _ 0 (by omega)]
    have hidx : (⟨(0 : Int).toNat, by simpa using hpos⟩ : Fin max_n) =
        ⟨s.clear.n.toNat, by simpa [indirect.clear] using hpos⟩ := by
      apply Fin.ext
      rfl
    simp only
    rw [hidx, Function.update_same]
  · show s.clear.n + 1 = 1
    show (0 : Int) + 1 = 1
    rfl

/-- C3 at a concrete input: a full container of capacity two. -/
theorem indirect_clear_then_touch_witness :
    (indirect.clear ⟨fun _ : Fin 2 => 99, 2⟩).get_n = 0 ∧
    ∃ s', (indirect.clear ⟨fun _ : Fin 2 => 99, 2⟩).touch 7 = some s' ∧
      s'.deref (s'.look_up 0) = some 7 ∧ s'.get_n = 1 :=
  indirect_clear_then_touch (by norm_num) (by norm_num) ⟨fun _ : Fin 2 => 99, 2⟩ 7
/-! ## The `indirect` container, concurrent callers -/

/-- With no other caller in between, the two accesses of one call are the
sequential `touch`. -/
theorem Touching.run_alone_eq_touch {max_n k : Nat} (args : Fin k → Int)
    (σ : Touching max_n k) (t : Fin k) (hpc : σ.pc t = TouchPc.start) :
    (Touching.run args σ [t, t]).map (fun σ' => σ'.shared) = σ.shared.touch (args t) := by
  unfold Touching.run Touching.run Touching.run
  unfold Touching.step indirect.touch
  rw [hpc]
  simp only [Function.update_same]
  by_cases h : 0 ≤ σ.shared.n ∧ σ.shared.n < (max_n : Int)
  · rw [dif_pos h, dif_pos h]
    rfl
  · rw [dif_neg h, dif_neg h]
    rfl

theorem Touching.started_card_le {max_n k : Nat} (σ : Touching max_n k) :
    (Finset.univ.filter (fun t => σ.pc t ≠ TouchPc.start)).card ≤ k := by
  have h := Finset.card_le_univ (Finset.univ.filter (fun t => σ.pc t ≠ TouchPc.start))
  simpa using h

theorem Touching.step_start {max_n k : Nat} (hmax : max_n < 2 ^ 31) (hk : k ≤ max_n)
    (args : Fin k → Int) (σ : Touching max_n k) (t : Fin k)
    (hinv : Touching.Inv args σ) (hpc : σ.pc t = TouchPc.start) :
    ∃ σ', Touching.step args σ t = some σ' ∧ Touching.Inv args σ' ∧
      σ'.pc = Function.update σ.pc t (TouchPc.reserved σ.shared.n) := by
  have hnot : t ∉ Finset.univ.filter (fun t => σ.pc t ≠ TouchPc.start) := by
    simp [hpc]
  have hlt := Finset.card_lt_univ_of_not_mem hnot
  simp only [Fintype.card_fin] at hlt
  have hn := hinv.counter
  have hwrap : toInt32 (ofInt32 (σ.shared.n + 1)) = σ.shared.n + 1 :=
    toInt32_ofInt32 _ (by omega) (by omega)
  refine ⟨{ shared := { σ.shared with n := σ.shared.n + 1 },
            pc := Function.update σ.pc t (TouchPc.reserved σ.shared.n) }, ?_, ?_, rfl⟩
  · unfold Touching.step
    rw [hpc]
    simp only
    rw [hwrap]
  · have hslot : ∀ t' s, (Function.update σ.pc t (TouchPc.reserved σ.shared.n) t').slot = some s →
        (t' = t ∧ s = σ.shared.n) ∨ (t' ≠ t ∧ (σ.pc t').slot = some s) := by
      intro t' s h
      by_cases e : t' = t
      · subst e
        rw [Function.update_same] at h
        left
        simp only [TouchPc.slot, Option.some.injEq] at h
        exact ⟨rfl, h.symm⟩
      · rw [Function.update_noteq e] at h
        exact Or.inr ⟨e, h⟩
    constructor
    · show σ.shared.n + 1 = _
      have hset : Finset.univ.filter
            (fun t' => Function.update σ.pc t (TouchPc.reserved σ.shared.n) t' ≠ TouchPc.start)
          = insert t (Finset.univ.filter (fun t => σ.pc t ≠ TouchPc.start)) := by
        ext t'
        by_cases e : t' = t
        · subst e
          simp
        · simp [Function.update_noteq e, e]
      rw [hset, Finset.card_insert_of_not_mem hnot, hn]
      push_cast
      rfl
    · intro t' s h
      show 0 ≤ s ∧ s < σ.shared.n + 1
      rcases hslot t' s h with ⟨_, rfl⟩ | ⟨_, h'⟩
      · omega
      · have := hinv.bound t' s h'
        omega
    · intro t1 t2 s h1 h2
      rcases hslot t1 s h1 with ⟨e1, hs1⟩ | ⟨_, h1'⟩
      · rcases hslot t2 s h2 with ⟨e2, _⟩ | ⟨_, h2'⟩
        · rw [e1, e2]
        · have := hinv.bound t2 s h2'
          omega
      · rcases hslot t2 s h2 with ⟨_, hs2⟩ | ⟨_, h2'⟩
        · have := hinv.bound t1 s h1'
          omega
        · exact hinv.distinct t1 t2 s h1' h2'
    · intro t' s h hb
      by_cases e : t' = t
      · subst e
        simp only [Function.update_same] at h
        cases h
      · simp only [Function.update_noteq e] at h
        exact hinv.stored t' s h hb

theorem Touching.step_reserved {max_n k : Nat} (hk : k ≤ max_n)
    (args : Fin k → Int) (σ : Touching max_n k) (t : Fin k) (s : Int)
    (hinv : Touching.Inv args σ) (hpc : σ.pc t = TouchPc.reserved s) :
    ∃ σ', Touching.step args σ t = some σ' ∧ Touching.Inv args σ' ∧
      σ'.pc = Function.update σ.pc t (TouchPc.done s) := by
  have hb := hinv.bound t s (by rw [hpc]; rfl)
  have hn := hinv.counter
  have hcard := Touching.started_card_le σ
  have hin : 0 ≤ s ∧ s < (max_n : Int) := by omega
  refine ⟨{ shared := { σ.shared with
              children := Function.update σ.shared.children ⟨s.toNat, by omega⟩ (args t) },
            pc := Function.update σ.pc t (TouchPc.done s) }, ?_, ?_, rfl⟩
  · unfold Touching.step
    rw [hpc]
    simp only
    rw [dif_pos hin]
  · have hslot : ∀ t', (Function.update σ.pc t (TouchPc.done s) t').slot = (σ.pc t').slot := by
      intro t'
      by_cases e : t' = t
      · subst e
        rw [Function.update_same, hpc]
        rfl
      · rw [Function.update_noteq e]
    have hstart : ∀ t', Function.update σ.pc t (TouchPc.done s) t' ≠ TouchPc.start ↔
        σ.pc t' ≠ TouchPc.start := by
      intro t'
      by_cases e : t' = t
      · subst e
        rw [Function.update_same, hpc]
        simp
      · rw [Function.update_noteq e]
    constructor
    · refine hn.trans ?_
      congr 2
      ext t'
      simp only [Finset.mem_filter, Finset.mem_univ, true_and]
      exact (hstart t').symm
    · intro t' s' h
      rw [hslot] at h
      exact hinv.bound t' s' h
    · intro t1 t2 s' h1 h2
      rw [hslot] at h1 h2
      exact hinv.distinct t1 t2 s' h1 h2
    · intro t' s' h hb'
      show Function.update σ.shared.children _ (args t) _ = args t'
      change Function.update σ.pc t (TouchPc.done s) t' = TouchPc.done s' at h
      by_cases e : t' = t
      · subst e
        rw [Function.update_same] at h
        cases h
        rw [Function.update_same]
      · rw [Function.update_noteq e] at h
        have hne : s' ≠ s := by
          intro es
          apply e
          apply hinv.distinct t' t s
          · rw [h, es]; rfl
          · rw [hpc]; rfl
        rw [Function.update_noteq]
        · exact hinv.stored t' s' h hb'
        · intro hf
          apply hne
          have := congrArg Fin.val hf
          simp only at this
          omega

theorem Touching.run_spec {max_n k : Nat} (hmax : max_n < 2 ^ 31) (hk : k ≤ max_n)
    (args : Fin k → Int) :
    ∀ (sched : List (Fin k)) (σ : Touching max_n k), Touching.Inv args σ →
      (∀ t, sched.count t = (σ.pc t).remaining) →
      ∃ σ', Touching.run args σ sched = some σ' ∧ Touching.Inv args σ' ∧
        ∀ t, (σ'.pc t).remaining = 0 := by
  intro sched
  induction sched with
  | nil =>
    intro σ hinv hc
    refine ⟨σ, rfl, hinv, fun t => ?_⟩
    have := hc t
    simp only [List.count_nil] at this
    exact this.symm
  | cons t rest ih =>
    intro σ hinv hc
    have hrest : ∀ (σ' : Touching max_n k) (v : TouchPc),
        σ'.pc = Function.update σ.pc t v → (σ.pc t).remaining = v.remaining + 1 →
        ∀ t', rest.count t' = (σ'.pc t').remaining := by
      intro σ' v hpc hv t'
      have h := hc t'
      rw [hpc]
      by_cases e : t' = t
      · subst e
        rw [List.count_cons_self] at h
        rw [Function.update_same]
        omega
      · rw [List.count_cons_of_ne e] at h
        rw [Function.update_noteq e]
        exact h
    have ht := hc t
    rw [List.count_cons_self] at ht
    cases hpc : σ.pc t with
    | start =>
      obtain ⟨σ1, hstep, hinv1, hpc1⟩ := Touching.step_start hmax hk args σ t hinv hpc
      obtain ⟨σ', hrun, hinv', hdone⟩ := ih σ1 hinv1 (hrest σ1 _ hpc1 (by rw [hpc]; rfl))
      refine ⟨σ', ?_, hinv', hdone⟩
      unfold Touching.run
      rw [hstep]
      exact hrun
    | reserved s =>
      obtain ⟨σ1, hstep, hinv1, hpc1⟩ := Touching.step_reserved hk args σ t s hinv hpc
      obtain ⟨σ', hrun, hinv', hdone⟩ := ih σ1 hinv1 (hrest σ1 _ hpc1 (by rw [hpc]; rfl))
      refine ⟨σ', ?_, hinv', hdone⟩
      unfold Touching.run
      rw [hstep]
      exact hrun
    | done s =>
      rw [hpc] at ht
      simp [TouchPc.remaining] at ht

theorem Touching.init_inv {max_n k : Nat} (args : Fin k → Int) (s : indirect max_n)
    (hs : s.n = 0) : Touching.Inv args (Touching.init s : Touching max_n k) := by
  constructor
  · show s.n = _
    rw [hs]
    simp [Touching.init]
  · intro t x h
    cases h
  · intro t t' x h
    cases h
  · intro t x h
    cases h

/-- C4: `k <= max_n` callers each run `touch(args t)` on an empty
`indirect<max_n>`, their accesses interleaved in any order.  Every
interleaving runs to the end; the final count is `k`, the callers were given
pairwise distinct slots below `k`, each slot holds the argument of its caller,
and the values in slots `0 .. k-1` are, as a multiset, the arguments passed. -/
theorem indirect_touch_concurrent {max_n k : Nat} (hmax : max_n < 2 ^ 31) (hk : k ≤ max_n)
    (garbage : Fin max_n → Int) (args : Fin k → Int) (sched : List (Fin k))
    (hsched : ∀ t, sched.count t = 2) :
    ∃ (σ : Touching max_n k) (slot : Fin k → Fin k),
      Touching.run args (Touching.init (indirect.new garbage)) sched = some σ ∧
      σ.shared.get_n = k ∧
      (∀ t, σ.pc t = TouchPc.done (slot t).val) ∧
      Function.Injective slot ∧
      (∀ t, σ.shared.deref (σ.shared.look_up (slot t).val) = some (args t)) ∧
      Multiset.map (fun j : Fin k => σ.shared.children (Fin.castLE hk j)) Finset.univ.val
        = Multiset.map args Finset.univ.val := by
  obtain ⟨σ, hrun, hinv, hdone⟩ := Touching.run_spec hmax hk args sched
    (Touching.init (indirect.new garbage)) (Touching.init_inv args _ rfl)
    (fun t => by rw [hsched t]; rfl)
  have hall : ∀ t, ∃ s, σ.pc t = TouchPc.done s := by
    intro t
    have := hdone t
    cases hpc : σ.pc t with
    | start => rw [hpc] at this; simp [TouchPc.remaining] at this
    | reserved s => rw [hpc] at this; simp [TouchPc.remaining] at this
    | done s => exact ⟨s, rfl⟩
  have hn : σ.shared.n = k := by
    rw [hinv.counter]
    have : Finset.univ.filter (fun t => σ.pc t ≠ TouchPc.start) = Finset.univ := by
      ext t
      obtain ⟨s, hs⟩ := hall t
      simp [hs]
    rw [this]
    simp
  choose sl hsl using hall
  have hbound : ∀ t, 0 ≤ sl t ∧ sl t < k := by
    intro t
    have := hinv.bound t (sl t) (by rw [hsl t]; rfl)
    omega
  let slot : Fin k → Fin k := fun t => ⟨(sl t).toNat, by have := hbound t; omega⟩
  have hval : ∀ t, ((slot t).val : Int) = sl t := by
    intro t
    have := hbound t
    show (((sl t).toNat : Nat) : Int) = sl t
    omega
  have hinj : Function.Injective slot := by
    intro t t' h
    have h1 := hval t
    have h2 := hval t'
    rw [h] at h1
    apply hinv.distinct t t' (sl t)
    · rw [hsl t]; rfl
    · rw [hsl t']
      show some (sl t') = some (sl t)
      rw [← h1, h2]
  have hstored : ∀ t, σ.shared.children (Fin.castLE hk (slot t)) = args t := by
    intro t
    have hb := hbound t
    exact hinv.stored t (sl t) (hsl t) (by omega)
  refine ⟨σ, slot, hrun, hn, ?_, hinj, ?_, ?_⟩
  · intro t
    rw [hval t]
    exact hsl t
  · intro t
    have hb := hbound t
    rw [hval t, indirect.deref_look_up _ _ (by omega)]
    have := hinv.stored t (sl t) (hsl t) (by omega)
    rw [this]
  · have hbij : Function.Bijective slot := Finite.injective_iff_bijective.mp hinj
    have hmap := Multiset.map_univ_val_equiv (Equiv.ofBijective slot hbij)
    have hfun : args = (fun j : Fin k => σ.shared.children (Fin.castLE hk j)) ∘
        (Equiv.ofBijective slot hbij) := by
      funext t
      exact (hstored t).symm
    rw [hfun, ← Multiset.map_map, hmap]

/-- C4 at a concrete input: three callers on a container of capacity four,
caller 2 reserving first and caller 0 storing last. -/
theorem indirect_touch_concurrent_witness :
    ∃ (σ : Touching 4 3) (slot : Fin 3 → Fin 3),
      Touching.run ![10, 20, 30] (Touching.init (indirect.new (fun _ => 99)))
        [2, 0, 1, 1, 2, 0] = some σ ∧
      σ.shared.get_n = (3 : Nat) ∧
      (∀ t, σ.pc t = TouchPc.done (slot t).val) ∧
      Function.Injective slot ∧
      (∀ t, σ.shared.deref (σ.shared.look_up (slot t).val) = some ((![10, 20, 30] : Fin 3 → Int) t)) ∧
      Multiset.map (fun j : Fin 3 => σ.shared.children (Fin.castLE (by norm_num) j))
          Finset.univ.val
        = Multiset.map (![10, 20, 30] : Fin 3 → Int) Finset.univ.val :=
  indirect_touch_concurrent (by norm_num) (by norm_num) (fun _ => 99) ![10, 20, 30]
    [2, 0, 1, 1, 2, 0] (by decide)
/-! ## Masks: `select`, `cmp_ne`, `cmp_lt` -/

/-- C5: with every mask lane all ones or all zero, lane `i` of
`select(mask, true_val, false_val)` is `true_val[i]` where the mask lane is all
ones and `false_val[i]` where it is zero, in the `int32x8` and in the
`float32x8` overload. -/
theorem select_on_masks (mask : int32x8) (true_val false_val : m256)
    (hmask : ∀ i, mask i = allOnes ∨ mask i = 0) :
    ∀ i,
      select_int32x8 mask true_val false_val i
        = (if mask i = allOnes then true_val i else false_val i) ∧
      select_float32x8 mask true_val false_val i
        = (if mask i = allOnes then true_val i else false_val i) := by
  intro i
  unfold select_int32x8 select_float32x8 _mm256_blendv_ps
  rcases hmask i with h | h
  · rw [h]
    simp [allOnes]
  · rw [h]
    simp [allOnes]

/-- C5 at a concrete input: the mask alternates between all ones and zero;
lane 0 comes from `true_val`, lane 1 from `false_val`. -/
theorem select_on_masks_witness :
    (select_int32x8 (fun j => if j.val % 2 = 0 then allOnes else 0)
        (fun j => 10 + j.val) (fun j => 20 + j.val) 0 = 10 ∧
      select_float32x8 (fun j => if j.val % 2 = 0 then allOnes else 0)
        (fun j => 10 + j.val) (fun j => 20 + j.val) 0 = 10) ∧
    (select_int32x8 (fun j => if j.val % 2 = 0 then allOnes else 0)
        (fun j => 10 + j.val) (fun j => 20 + j.val) 1 = 21 ∧
      select_float32x8 (fun j => if j.val % 2 = 0 then allOnes else 0)
        (fun j => 10 + j.val) (fun j => 20 + j.val) 1 = 21) :=
  have hmask : ∀ i : Fin 8,
      (fun j : Fin 8 => if j.val % 2 = 0 then allOnes else 0) i = allOnes ∨
      (fun j : Fin 8 => if j.val % 2 = 0 then allOnes else 0) i = 0 := fun i => by
    by_cases h : i.val % 2 = 0
    · exact Or.inl (if_pos h)
    · exact Or.inr (if_neg h)
  have h0 := select_on_masks (fun j => if j.val % 2 = 0 then allOnes else 0)
    (fun j => 10 + j.val) (fun j => 20 + j.val) hmask 0
  have h1 := select_on_masks (fun j => if j.val % 2 = 0 then allOnes else 0)
    (fun j => 10 + j.val) (fun j => 20 + j.val) hmask 1
  ⟨⟨h0.1.trans (by decide), h0.2.trans (by decide)⟩,
   ⟨h1.1.trans (by decide), h1.2.trans (by decide)⟩⟩

/-- C6, the code at two inputs: lanes `0` and `INT_MIN` differ as integers but
are `+0.0` and `-0.0` as `float`s, and `cmp_ne` gives the zero mask; two lanes
holding the same quiet-NaN pattern `0x7FC00000` are equal as integers, and
`cmp_ne` gives all ones. -/
theorem cmp_ne_int32x8_compares_floats :
    (toInt32 0 ≠ toInt32 0x80000000 ∧
      ∀ i, cmp_ne_int32x8 (fun _ => 0) (fun _ => 0x80000000) i = 0) ∧
    (toInt32 0x7FC00000 = toInt32 0x7FC00000 ∧
      ∀ i, cmp_ne_int32x8 (fun _ => 0x7FC00000) (fun _ => 0x7FC00000) i = allOnes) := by
  refine ⟨⟨by decide, fun i => ?_⟩, ⟨rfl, fun i => ?_⟩⟩
  · show (if floatEq 0 0x80000000 then 0 else allOnes) = 0
    decide
  · show (if floatEq 0x7FC00000 0x7FC00000 then 0 else allOnes) = allOnes
    decide

/-- C7: lane `i` of `cmp_lt(a, b)` is all ones (`0xFFFFFFFF`) when
`a[i] < b[i]` as signed 32-bit integers and zero otherwise. -/
theorem cmp_lt_int32x8_mask (a b : int32x8) :
    ∀ i, cmp_lt_int32x8 a b i =
      (if toInt32 (a i) < toInt32 (b i) then 0xFFFFFFFF else 0) := by
  intro i
  rfl

/-! ## Kernel invocation context -/

/-- C8: the context built by `Context(x, y, z, n)` returns `x`, `y`, `z` from
`get_buffer<T>(0)`, `get_buffer<T>(1)`, `get_buffer<T>(2)` and `n` from
`get_range(0)`. -/
theorem context_round_trip (x y z n : Nat) :
    (Context.new4 x y z n).get_buffer 0 = some x ∧
    (Context.new4 x y z n).get_buffer 1 = some y ∧
    (Context.new4 x y z n).get_buffer 2 = some z ∧
    (Context.new4 x y z n).get_range 0 = some n := by
  refine ⟨rfl, rfl, rfl, rfl⟩

/-- C8 at the range bound 100. -/
theorem context_round_trip_witness :
    (Context.new4 4096 8192 12288 100).get_buffer 0 = some 4096 ∧
    (Context.new4 4096 8192 12288 100).get_buffer 1 = some 8192 ∧
    (Context.new4 4096 8192 12288 100).get_buffer 2 = some 12288 ∧
    (Context.new4 4096 8192 12288 100).get_range 0 = some 100 :=
  context_round_trip 4096 8192 12288 100

/-- C9: a default-constructed context has a null buffer, a zero parameter and a
zero range in each of its sixteen slots, and `Context(x, y, z, n)` differs from
it only in buffers 0, 1, 2 and range 0: buffers 3..15, all parameters and
ranges 1..15 are still zero. -/
theorem context_zero_filled :
    (Context.max_num_buffers = 16 ∧ Context.max_num_parameters = 16 ∧
      Context.max_num_ranges = 16) ∧
    ((∀ i, Context.new.buffers i = 0) ∧ (∀ i, Context.new.parameters i = 0) ∧
      (∀ i, Context.new.ranges i = 0)) ∧
    (∀ x y z n : Nat,
      (∀ i, 3 ≤ i.val → (Context.new4 x y z n).buffers i = 0) ∧
      (∀ i, (Context.new4 x y z n).parameters i = 0) ∧
      (∀ i, 1 ≤ i.val → (Context.new4 x y z n).ranges i = 0)) := by
  refine ⟨⟨rfl, rfl, rfl⟩, ⟨fun _ => rfl, fun _ => rfl, fun _ => rfl⟩, fun x y z n =>
    ⟨fun i h => ?_, fun _ => rfl, fun i h => ?_⟩⟩
  · have h0 : i ≠ 0 := by intro e; rw [e] at h; simp at h
    have h1 : i ≠ 1 := by intro e; rw [e] at h; simp at h
    have h2 : i ≠ 2 := by intro e; rw [e] at h; simp at h
    simp [Context.new4, Context.new, Function.update_noteq h0, Function.update_noteq h1,
      Function.update_noteq h2]
  · have h0 : i ≠ 0 := by intro e; rw [e] at h; simp at h
    simp [Context.new4, Context.new, Function.update_noteq h0]

/-- C9 at a concrete input: buffer slot 3 and range slot 1 of
`Context(4096, 8192, 12288, 100)` are zero. -/
theorem context_zero_filled_witness :
    (Context.new4 4096 8192 12288 100).buffers 3 = 0 ∧
    (Context.new4 4096 8192 12288 100).ranges 1 = 0 :=
  ⟨(context_zero_filled.2.2 4096 8192 12288 100).1 3 (by decide),
   (context_zero_filled.2.2 4096 8192 12288 100).2.2 1 (by decide)⟩
/-! ## `load` and `store` -/

theorem byteOf_readLane (m : Mem) (hm : m.valid) (a k : Nat) (hk : k < 4) :
    byteOf (readLane m a) k = m (a + k) := by
  unfold byteOf readLane
  have h0 := hm a
  have h1 := hm (a + 1)
  have h2 := hm (a + 2)
  have h3 := hm (a + 3)
  have hk' : k = 0 ∨ k = 1 ∨ k = 2 ∨ k = 3 := by omega
  rcases hk' with rfl | rfl | rfl | rfl
  · norm_num; omega
  · norm_num; omega
  · norm_num; omega
  · norm_num; omega

theorem readLane_congr (m m' : Mem) (a b : Nat)
    (h : ∀ k, k < 4 → m' (b + k) = m (a + k)) : readLane m' b = readLane m a := by
  unfold readLane
  have h0 := h 0 (by omega)
  rw [h 1 (by omega), h 2 (by omega), h 3 (by omega)]
  simp only [Nat.add_zero] at h0
  rw [h0]

theorem write256_inside (m : Mem) (hm : m.valid) (src dst j : Nat) (hj : j < 32) :
    write256 m dst (fun i : Fin 8 => readLane m (src + 4 * i.val)) (dst + j) = m (src + j) := by
  unfold write256
  rw [dif_pos (by omega)]
  simp only
  rw [byteOf_readLane m hm _ _ (Nat.mod_lt _ (by norm_num))]
  congr 1
  omega

theorem write256_outside (m : Mem) (dst p : Nat) (a : m256) (hp : p < dst ∨ dst + 32 ≤ p) :
    write256 m dst a p = m p := by
  unfold write256
  rw [dif_neg (by omega)]

theorem copiesBuffer_of_bytes (width : Nat) (m m' : Mem) (src dst : Nat)
    (hin : ∀ j, j < 4 * width → m' (dst + j) = m (src + j))
    (hout : ∀ p, p < dst ∨ dst + 4 * width ≤ p → m' p = m p) :
    CopiesBuffer width m m' src dst := by
  refine ⟨fun i hi => ?_, hin, fun hd j hj => hout _ (by omega)⟩
  apply readLane_congr
  intro k hk
  have := hin (4 * i + k) (by omega)
  rw [← Nat.add_assoc, ← Nat.add_assoc] at this
  exact this

/-- C10: for `float32` and `int32` at width 8 and at width 1, `load` from `src`
followed by `store` to `dst` leaves every element and every byte of `dst` equal
to that of `src`, and leaves `src` as it was when `dst` is a buffer of its own. -/
theorem load_store_round_trip (m : Mem) (hm : m.valid) (src dst : Nat) :
    CopiesBuffer 8 m (store_float32x8 m (load_float32x8 m src) dst) src dst ∧
    CopiesBuffer 8 m (store_int32x8 m (load_int32x8 m src) dst) src dst ∧
    CopiesBuffer 1 m (store_x1 m (load_x1 m src) dst) src dst := by
  refine ⟨?_, ?_, ?_⟩
  · apply copiesBuffer_of_bytes
    · intro j hj
      exact write256_inside m hm src dst j (by omega)
    · intro p hp
      exact write256_outside m dst p _ (by omega)
  · apply copiesBuffer_of_bytes
    · intro j hj
      exact write256_inside m hm src dst j (by omega)
    · intro p hp
      exact write256_outside m dst p _ (by omega)
  · apply copiesBuffer_of_bytes
    · intro j hj
      unfold store_x1 load_x1
      rw [if_pos (by omega)]
      rw [byteOf_readLane m hm _ _ (by omega)]
      congr 1
      omega
    · intro p hp
      unfold store_x1
      rw [if_neg (by omega)]

/-- C10 at a concrete input: the source at address 0 holds the bytes `0, 1, 2, ..`,
the destination is at address 64. -/
theorem load_store_round_trip_witness :
    CopiesBuffer 8 (fun p => p % 256)
      (store_float32x8 (fun p => p % 256) (load_float32x8 (fun p => p % 256) 0) 64) 0 64 ∧
    CopiesBuffer 8 (fun p => p % 256)
      (store_int32x8 (fun p => p % 256) (load_int32x8 (fun p => p % 256) 0) 64) 0 64 ∧
    CopiesBuffer 1 (fun p => p % 256)
      (store_x1 (fun p => p % 256) (load_x1 (fun p => p % 256) 0) 64) 0 64 :=
  load_store_round_trip (fun p => p % 256) (fun p => Nat.mod_lt p (by norm_num)) 0 64
/-! ## The group adapter -/

/-- C11: `shuffle()` leaves a `SlowAdapter` as it is, applied once or twice:
every `inputs[k][j]` and every element read through `operator[]` is the same
before and after, and with them the number of elements. -/
theorem slowAdapter_shuffle_keeps_elements {T : Type}
    {num_groups num_inputs input_group_size : Nat}
    (s : SlowAdapter T num_groups num_inputs input_group_size) :
    (s.shuffle = s ∧ s.shuffle.shuffle = s) ∧
    (∀ (k : Fin num_inputs) (j : Fin (num_groups * input_group_size)),
      s.shuffle.inputs k j = s.inputs k j ∧ s.shuffle.shuffle.inputs k j = s.inputs k j) ∧
    (∀ i : Int, s.shuffle.get i = s.get i ∧ s.shuffle.shuffle.get i = s.get i) := by
  refine ⟨⟨rfl, rfl⟩, fun k j => ⟨rfl, rfl⟩, fun i => ⟨rfl, rfl⟩⟩

/-! ## The `indirect` container: `clear` keeps the slots -/

/-- C13: `clear()` changes only the counter: every slot of `children`, read
directly or through `*look_up(j)`, holds after `clear()` what it held before. -/
theorem indirect_clear_keeps_children {max_n : Nat} (s : indirect max_n) :
    (∀ p : Fin max_n, s.clear.children p = s.children p) ∧
    (∀ j : Int, s.clear.deref (s.clear.look_up j) = s.deref (s.look_up j)) ∧
    (∀ j : Int, 0 ≤ j ∧ j < max_n → ∃ x, s.clear.deref (s.clear.look_up j) = some x ∧
      s.deref (s.look_up j) = some x) := by
  refine ⟨fun _ => rfl, fun _ => rfl, fun j hj => ?_⟩
  refine ⟨s.children ⟨j.toNat, by omega⟩, ?_, ?_⟩
  · exact indirect.deref_look_up s.clear j hj
  · exact indirect.deref_look_up s j hj

/-- C13 at a concrete input: slot 1 of a full container of capacity two. -/
theorem indirect_clear_keeps_children_witness :
    ∃ x, (indirect.clear ⟨fun i : Fin 2 => 40 + i.val, 2⟩).deref
        ((indirect.clear ⟨fun i : Fin 2 => 40 + i.val, 2⟩).look_up 1) = some x ∧
      (indirect.mk (fun i : Fin 2 => 40 + (i.val : Int)) 2).deref
        ((indirect.mk (fun i : Fin 2 => 40 + (i.val : Int)) 2).look_up 1) = some x :=
  (indirect_clear_keeps_children ⟨fun i : Fin 2 => 40 + i.val, 2⟩).2.2 1 (by decide)

/-! ## Lane permutation -/

theorem ofInt32_mod_eight (x : Int) (h : 0 ≤ x ∧ x < 8) : ofInt32 x % 8 = x.toNat := by
  unfold ofInt32
  omega

theorem set_epi32_lane (idx : Fin 8 → Int) (k : Fin 8) :
    _mm256_set_epi32 (idx 7) (idx 6) (idx 5) (idx 4) (idx 3) (idx 2) (idx 1) (idx 0) k
      = ofInt32 (idx k) := by
  unfold _mm256_set_epi32
  fin_cases k <;> rfl

theorem permutevar_lane (a : m256) (idx : Fin 8 → Int) (h : ∀ k, 0 ≤ idx k ∧ idx k < 8)
    (k : Fin 8) :
    _mm256_permutevar8x32_epi32 a
        (_mm256_set_epi32 (idx 7) (idx 6) (idx 5) (idx 4) (idx 3) (idx 2) (idx 1) (idx 0)) k
      = a ⟨(idx k).toNat, by have := h k; omega⟩ := by
  unfold _mm256_permutevar8x32_epi32
  congr 1
  apply Fin.ext
  simp only
  rw [set_epi32_lane, ofInt32_mod_eight _ (h k)]

/-- C18: with every index in `0..7`, lane `k` of `shuffle8x32<i0, .., i7>(a)` is
`a[i_k]`, for `int32x8` and for `float32x8`; the index list `0, 1, .., 7`
returns `a`, and shuffling by a permutation and then by its inverse returns `a`. -/
theorem shuffle8x32_lanes (a : m256) :
    (∀ (idx : Fin 8 → Int) (h : ∀ k, 0 ≤ idx k ∧ idx k < 8) (k : Fin 8),
      shuffle8x32_int32x8 (idx 0) (idx 1) (idx 2) (idx 3) (idx 4) (idx 5) (idx 6) (idx 7) a k
        = a ⟨(idx k).toNat, by have := h k; omega⟩ ∧
      shuffle8x32_float32x8 (idx 0) (idx 1) (idx 2) (idx 3) (idx 4) (idx 5) (idx 6) (idx 7) a k
        = a ⟨(idx k).toNat, by have := h k; omega⟩) ∧
    (shuffle8x32_int32x8 0 1 2 3 4 5 6 7 a = a ∧
      shuffle8x32_float32x8 0 1 2 3 4 5 6 7 a = a) ∧
    (∀ σ : Equiv.Perm (Fin 8),
      shuffle8x32_int32x8 (σ.symm 0) (σ.symm 1) (σ.symm 2) (σ.symm 3) (σ.symm 4) (σ.symm 5)
          (σ.symm 6) (σ.symm 7)
          (shuffle8x32_int32x8 (σ 0) (σ 1) (σ 2) (σ 3) (σ 4) (σ 5) (σ 6) (σ 7) a) = a ∧
      shuffle8x32_float32x8 (σ.symm 0) (σ.symm 1) (σ.symm 2) (σ.symm 3) (σ.symm 4) (σ.symm 5)
          (σ.symm 6) (σ.symm 7)
          (shuffle8x32_float32x8 (σ 0) (σ 1) (σ 2) (σ 3) (σ 4) (σ 5) (σ 6) (σ 7) a) = a) := by
  have hperm : ∀ (p : Fin 8 → Fin 8) (b : m256) (k : Fin 8),
      shuffle8x32_int32x8 (p 0) (p 1) (p 2) (p 3) (p 4) (p 5) (p 6) (p 7) b k = b (p k) := by
    intro p b k
    have h : ∀ k, 0 ≤ ((p k).val : Int) ∧ ((p k).val : Int) < 8 := fun k => by
      have := (p k).isLt
      omega
    have := permutevar_lane b (fun k => ((p k).val : Int)) h k
    unfold shuffle8x32_int32x8
    rw [this]
    congr 1
  refine ⟨fun idx h k => ⟨permutevar_lane a idx h k, permutevar_lane a idx h k⟩, ?_, fun σ => ?_⟩
  · have hid : shuffle8x32_int32x8 0 1 2 3 4 5 6 7 a = a := by
      funext k
      have := hperm (fun k => k) a k
      simpa using this
    exact ⟨hid, hid⟩
  · have hinv : shuffle8x32_int32x8 (σ.symm 0) (σ.symm 1) (σ.symm 2) (σ.symm 3) (σ.symm 4)
          (σ.symm 5) (σ.symm 6) (σ.symm 7)
          (shuffle8x32_int32x8 (σ 0) (σ 1) (σ 2) (σ 3) (σ 4) (σ 5) (σ 6) (σ 7) a) = a := by
      funext k
      rw [hperm (fun k => σ.symm k), hperm (fun k => σ k)]
      simp
    exact ⟨hinv, hinv⟩

/-- C18 at a concrete input: reversing the lanes `10, 11, .., 17`. -/
theorem shuffle8x32_lanes_witness :
    shuffle8x32_int32x8 7 6 5 4 3 2 1 0 (fun i => 10 + i.val) 0 = 17 ∧
    shuffle8x32_float32x8 7 6 5 4 3 2 1 0 (fun i => 10 + i.val) 0 = 17 :=
  (shuffle8x32_lanes (fun i => 10 + i.val)).1 ![7, 6, 5, 4, 3, 2, 1, 0]
    (by intro k; fin_cases k <;> decide) 0

/-! ## The group adapter: `set` and the flat accessor -/

theorem tdiv_tmod_flat (dim k j : Int) (hk : 0 ≤ k) (hj : 0 ≤ j) (hjd : j < dim) :
    Int.tdiv (k * dim + j) dim = k ∧ Int.tmod (k * dim + j) dim = j := by
  have hd : 0 < dim := by omega
  have hnn : 0 ≤ k * dim + j := by
    have := mul_nonneg hk hd.le
    omega
  have hdiv : Int.tdiv (k * dim + j) dim = k := by
    rw [Int.tdiv_eq_ediv hnn hd.le]
    rw [add_comm, Int.add_mul_ediv_right _ _ (by omega), Int.ediv_eq_zero_of_lt hj hjd]
    simp
  refine ⟨hdiv, ?_⟩
  have := Int.tmod_add_tdiv (k * dim + j) dim
  rw [hdiv] at this
  linarith [mul_comm dim k]

theorem tdiv_tmod_range (dim n i : Int) (hd : 0 < dim) (hi : 0 ≤ i) (hin : i < n * dim) :
    (0 ≤ Int.tdiv i dim ∧ Int.tdiv i dim < n) ∧ (0 ≤ Int.tmod i dim ∧ Int.tmod i dim < dim) := by
  have h1 := Int.tdiv_nonneg hi hd.le
  have h2 := Int.tmod_nonneg dim hi
  have h3 := Int.tmod_lt_of_pos i hd
  have h4 := Int.tmod_add_tdiv i dim
  refine ⟨⟨h1, ?_⟩, h2, h3⟩
  by_contra hge
  have hge' : n ≤ Int.tdiv i dim := by omega
  have := mul_le_mul_of_nonneg_left hge' hd.le
  linarith [mul_comm n dim]

theorem SlowAdapter.get_flat {T : Type} {num_groups num_inputs input_group_size : Nat}
    (s : SlowAdapter T num_groups num_inputs input_group_size)
    (k : Fin num_inputs) (j : Fin (num_groups * input_group_size)) :
    s.get ((k.val : Int) * ((num_groups * input_group_size : Nat) : Int) + (j.val : Int))
      = some (s.inputs k j) := by
  have hk := k.isLt
  have hj := j.isLt
  obtain ⟨hq, hr⟩ := tdiv_tmod_flat ((num_groups * input_group_size : Nat) : Int)
    (k.val : Int) (j.val : Int) (by omega) (by omega) (by omega)
  have hnn : (0 : Int) ≤ (k.val : Int) * ((num_groups * input_group_size : Nat) : Int) := by
    positivity
  unfold SlowAdapter.get cppDiv cppMod
  rw [if_neg, if_neg, hq, hr]
  · simp only
    rw [dif_pos ⟨⟨by omega, by omega⟩, ⟨by omega, by omega⟩⟩]
    simp
  · intro h
    rcases h with h | h
    · omega
    · unfold INT_MIN at h
      omega
  · intro h
    rcases h with h | h
    · omega
    · unfold INT_MIN at h
      omega

/-- C17: for `0 <= k < num_inputs`, `set(k, v)` succeeds; afterwards
`adapter[k * input_dim + j] == v[j]` for every `j < input_dim`, `get_input<k>()`
is `v`, and the other inputs are as before.  The flat index
`i -> (i / input_dim, i % input_dim)` maps `0 .. num_inputs * input_dim - 1` one
to one onto the pairs of an input and a lane. -/
theorem slowAdapter_set_flat_access {T : Type} {num_groups num_inputs input_group_size : Nat}
    (s : SlowAdapter T num_groups num_inputs input_group_size)
    (k : Fin num_inputs) (v : VV (num_groups * input_group_size) T) :
    (∃ s', s.set (k.val : Int) v = some s' ∧ s' = s.set_static k v ∧
      (∀ j : Fin (num_groups * input_group_size),
        s'.get ((k.val : Int) * (s.input_dim : Int) + (j.val : Int)) = some (v j)) ∧
      s'.get_input k = v ∧
      (∀ k' : Fin num_inputs, k' ≠ k → ∀ j, s'.inputs k' j = s.inputs k' j)) ∧
    ((∀ i : Int, 0 ≤ i → i < (num_inputs : Int) * (s.input_dim : Int) →
        (0 ≤ Int.tdiv i s.input_dim ∧ Int.tdiv i s.input_dim < num_inputs) ∧
        (0 ≤ Int.tmod i s.input_dim ∧ Int.tmod i s.input_dim < s.input_dim)) ∧
      (∀ i i' : Int, Int.tdiv i s.input_dim = Int.tdiv i' s.input_dim →
        Int.tmod i s.input_dim = Int.tmod i' s.input_dim → i = i') ∧
      (∀ (k' : Fin num_inputs) (j : Fin (num_groups * input_group_size)),
        ∃ i : Int, (0 ≤ i ∧ i < (num_inputs : Int) * (s.input_dim : Int)) ∧
          Int.tdiv i s.input_dim = k'.val ∧ Int.tmod i s.input_dim = j.val)) := by
  have hk := k.isLt
  refine ⟨⟨s.set_static k v, ?_, rfl, ?_, ?_, ?_⟩, ?_, ?_, ?_⟩
  · unfold SlowAdapter.set SlowAdapter.set_static
    rw [dif_pos ⟨by omega, by omega⟩]
    simp
  · intro j
    rw [SlowAdapter.get_flat]
    simp [SlowAdapter.set_static]
  · simp [SlowAdapter.get_input, SlowAdapter.set_static]
  · intro k' hne j
    simp [SlowAdapter.set_static, Function.update_noteq hne]
  · intro i h0 hlt
    have hd : (0 : Int) < (s.input_dim : Int) := by
      by_contra hn
      have hz : (s.input_dim : Int) = 0 := by omega
      rw [hz] at hlt
      simp at hlt
      omega
    exact tdiv_tmod_range _ _ i hd h0 hlt
  · intro i i' hq hr
    have h1 := Int.tmod_add_tdiv i s.input_dim
    have h2 := Int.tmod_add_tdiv i' s.input_dim
    rw [hq, hr] at h1
    exact h1.symm.trans h2
  · intro k' j
    have hk' := k'.isLt
    have hj := j.isLt
    obtain ⟨hq, hr⟩ := tdiv_tmod_flat (s.input_dim : Int) (k'.val : Int) (j.val : Int)
      (by omega) (by omega) (by show (j.val : Int) < ((num_groups * input_group_size : Nat) : Int); omega)
    refine ⟨(k'.val : Int) * (s.input_dim : Int) + (j.val : Int), ⟨?_, ?_⟩, hq, hr⟩
    · have : (0 : Int) ≤ (k'.val : Int) * (s.input_dim : Int) := by positivity
      omega
    · have h1 : ((k'.val : Int) + 1) * (s.input_dim : Int) ≤ (num_inputs : Int) * (s.input_dim : Int) := by
        apply mul_le_mul_of_nonneg_right
        · omega
        · positivity
      have h2 : (j.val : Int) < (s.input_dim : Int) := by
        show (j.val : Int) < ((num_groups * input_group_size : Nat) : Int)
        omega
      linarith

/-- C17 at a concrete input: three inputs of two groups of two, input 1 is set
and read back at flat index 5. -/
theorem slowAdapter_set_flat_access_witness :
    ∃ s', (SlowAdapter.mk (fun k j => 100 * k.val + j.val) : SlowAdapter Nat 2 3 2).set 1
        (fun j => 7 + j.val) = some s' ∧
      s'.get 5 = some 8 :=
  match (slowAdapter_set_flat_access
      (SlowAdapter.mk (fun k j => 100 * k.val + j.val) : SlowAdapter Nat 2 3 2) 1
      (fun j => 7 + j.val)).1 with
  | ⟨s', h1, _, h3, _⟩ => ⟨s', h1, h3 1⟩

/-! ## Masks composed with `select`; the remainder -/

theorem ofInt32_toInt32 (w : Nat) (h : w < 2 ^ 32) : ofInt32 (toInt32 w) = w := by
  unfold toInt32 ofInt32
  rw [Nat.mod_eq_of_lt h]
  split <;> omega

/-- C19: for registers of 32-bit lanes, `select(cmp_lt(a, b), a, b)` is
`min(a, b)` and `select(cmp_lt(a, b), b, a)` is `max(a, b)`, lane for lane, in
the signed order. -/
theorem select_cmp_lt_is_min_max (a b : int32x8) (ha : a.valid) (hb : b.valid) :
    ∀ i,
      select_int32x8 (cmp_lt_int32x8 a b) a b i = min_int32x8 a b i ∧
      select_int32x8 (cmp_lt_int32x8 a b) b a i = max_int32x8 a b i ∧
      toInt32 (min_int32x8 a b i) = Min.min (toInt32 (a i)) (toInt32 (b i)) ∧
      toInt32 (max_int32x8 a b i) = Max.max (toInt32 (a i)) (toInt32 (b i)) := by
  intro i
  have hmin : min_int32x8 a b i = if toInt32 (a i) < toInt32 (b i) then a i else b i := by
    show ofInt32 (Min.min (toInt32 (a i)) (toInt32 (b i))) = _
    by_cases h : toInt32 (a i) < toInt32 (b i)
    · rw [if_pos h, min_eq_left h.le, ofInt32_toInt32 _ (ha i)]
    · rw [if_neg h, min_eq_right (not_lt.mp h), ofInt32_toInt32 _ (hb i)]
  have hmax : max_int32x8 a b i = if toInt32 (a i) < toInt32 (b i) then b i else a i := by
    show ofInt32 (Max.max (toInt32 (a i)) (toInt32 (b i))) = _
    by_cases h : toInt32 (a i) < toInt32 (b i)
    · rw [if_pos h, max_eq_right h.le, ofInt32_toInt32 _ (hb i)]
    · rw [if_neg h, max_eq_left (not_lt.mp h), ofInt32_toInt32 _ (ha i)]
  have hsel : ∀ x y : m256, select_int32x8 (cmp_lt_int32x8 a b) x y i =
      if toInt32 (a i) < toInt32 (b i) then x i else y i := by
    intro x y
    show (if ((if toInt32 (b i) > toInt32 (a i) then allOnes else 0) / 2 ^ 31) % 2 = 1
      then x i else y i) = _
    by_cases h : toInt32 (a i) < toInt32 (b i)
    · rw [if_pos h, if_pos h, if_pos (by decide)]
    · rw [if_neg h, if_neg h, if_neg (by decide)]
  refine ⟨by rw [hsel, hmin], by rw [hsel, hmax], ?_, ?_⟩
  · show toInt32 (ofInt32 (Min.min (toInt32 (a i)) (toInt32 (b i)))) = _
    have h1 := toInt32_range (a i)
    have h2 := toInt32_range (b i)
    apply toInt32_ofInt32
    · exact le_min h1.1 h2.1
    · exact lt_of_le_of_lt (min_le_left _ _) h1.2
  · show toInt32 (ofInt32 (Max.max (toInt32 (a i)) (toInt32 (b i)))) = _
    have h1 := toInt32_range (a i)
    have h2 := toInt32_range (b i)
    apply toInt32_ofInt32
    · exact le_trans h1.1 (le_max_left _ _)
    · exact max_lt h1.2 h2.2

/-- C19 at a concrete input: lane 0 compares `-4` with `3`. -/
theorem select_cmp_lt_is_min_max_witness :
    select_int32x8 (cmp_lt_int32x8 (fun _ => 0xFFFFFFFC) (fun _ => 3))
        (fun _ => 0xFFFFFFFC) (fun _ => 3) 0
      = min_int32x8 (fun _ => 0xFFFFFFFC) (fun _ => 3) 0 ∧
    select_int32x8 (cmp_lt_int32x8 (fun _ => 0xFFFFFFFC) (fun _ => 3))
        (fun _ => 3) (fun _ => 0xFFFFFFFC) 0
      = max_int32x8 (fun _ => 0xFFFFFFFC) (fun _ => 3) 0 ∧
    toInt32 (min_int32x8 (fun _ => 0xFFFFFFFC) (fun _ => 3) 0)
      = Min.min (toInt32 0xFFFFFFFC) (toInt32 3) ∧
    toInt32 (max_int32x8 (fun _ => 0xFFFFFFFC) (fun _ => 3) 0)
      = Max.max (toInt32 0xFFFFFFFC) (toInt32 3) :=
  select_cmp_lt_is_min_max (fun _ => 0xFFFFFFFC) (fun _ => 3)
    (fun _ => by show (0xFFFFFFFC : Nat) < 2 ^ 32; decide)
    (fun _ => by show (3 : Nat) < 2 ^ 32; decide) 0

/-- In a build that defines the lane accesses of `operator[]`: when every lane
of `b` is non-zero and no lane divides `INT_MIN` by `-1`, each lane `r` of
`mod(a, b)` has `|r| < |b[i]|`, is zero or has the sign of `a[i]`, and satisfies
`div(a, b)[i] * b[i] + r == a[i]`. -/
theorem mod_lanes_remainder (ret0 ret1 a b : int32x8)
    (hb : ∀ i, toInt32 (b i) ≠ 0)
    (hov : ∀ i, ¬ (toInt32 (a i) = INT_MIN ∧ toInt32 (b i) = -1)) :
    ∃ q r, div Aliasing.permissive ret0 a b = some q ∧
      mod Aliasing.permissive ret1 a b = some r ∧ ∀ i,
      |toInt32 (r i)| < |toInt32 (b i)| ∧
      (toInt32 (r i) = 0 ∨ (0 < toInt32 (r i) ∧ 0 < toInt32 (a i)) ∨
        (toInt32 (r i) < 0 ∧ toInt32 (a i) < 0)) ∧
      toInt32 (q i) * toInt32 (b i) + toInt32 (r i) = toInt32 (a i) := by
  obtain ⟨q, _, hq, _, hqs⟩ := div_mod_lanes ret0 a b hb hov
  obtain ⟨_, r, _, hr, hrs⟩ := div_mod_lanes ret1 a b hb hov
  refine ⟨q, r, hq, hr, fun i => ?_⟩
  obtain ⟨hqi, _⟩ := hqs i
  obtain ⟨_, hri⟩ := hrs i
  have hlt := tmod_lt_abs (toInt32 (a i)) (toInt32 (b i)) (hb i)
  have hgt := neg_abs_lt_tmod (toInt32 (a i)) (toInt32 (b i)) (hb i)
  have hsum := Int.tmod_add_tdiv (toInt32 (a i)) (toInt32 (b i))
  rw [hqi, hri]
  refine ⟨abs_lt.mpr ⟨hgt, hlt⟩, ?_, ?_⟩
  · rcases lt_trichotomy (toInt32 (a i)) 0 with h | h | h
    · have := tmod_nonpos (toInt32 (a i)) (toInt32 (b i)) h.le
      omega
    · rw [h]
      left
      simp
    · have := Int.tmod_nonneg (toInt32 (b i)) h.le
      omega
  · linarith [mul_comm (Int.tdiv (toInt32 (a i)) (toInt32 (b i))) (toInt32 (b i))]

/-- C14, the code at lanes `-1` shifted by one: `shr` on `VV<8, int32>` keeps
the sign and gives `-1` in every lane, `shr` on `int32x8` shifts in a zero and
gives `0x7FFFFFFF = 2147483647`. -/
theorem shr_int32x8_differs_from_VV :
    (∀ i : Fin 8, toInt32 ((fun _ => 0xFFFFFFFF : int32x8) i) = -1) ∧
    shr_VV (fun _ : Fin 8 => (-1 : Int)) 1 = some (fun _ => -1) ∧
    (∀ i : Fin 8, toInt32 (shr_int32x8 (fun _ => 0xFFFFFFFF) 1 i) = 2147483647) := by
  refine ⟨fun _ => ?_, ?_, fun _ => ?_⟩
  · show toInt32 0xFFFFFFFF = -1
    decide
  · unfold shr_VV VV.tabulate
    rw [dif_pos (fun _ => by show (cppShr (-1) 1).isSome = true; decide)]
    rfl
  · show toInt32 (if ofInt32 1 > 31 then 0
      else (0xFFFFFFFF % 2 ^ 32) / 2 ^ ofInt32 1) = 2147483647
    decide

/-- On lanes that are not negative the two `shr` agree, for every count `0 <= b < 32`. -/
theorem shr_int32x8_eq_VV_of_nonneg (a : int32x8) (b : Int) (hb : 0 ≤ b ∧ b < 32)
    (ha : ∀ i, 0 ≤ toInt32 (a i)) :
    ∃ c, shr_VV (fun i => toInt32 (a i)) b = some c ∧
      ∀ i, toInt32 (shr_int32x8 a b i) = c i := by
  have hsome : ∀ i : Fin 8, cppShr (toInt32 (a i)) b = some (toInt32 (a i) >>> b.toNat) := by
    intro i
    unfold cppShr
    rw [if_pos hb]
  refine ⟨fun i => toInt32 (a i) >>> b.toNat, ?_, fun i => ?_⟩
  · unfold shr_VV VV.tabulate
    rw [dif_pos (fun i => by show (cppShr (toInt32 (a i)) b).isSome = true; rw [hsome i]; rfl)]
    congr 1
    funext i
    simp [hsome i]
  · have hcount : ofInt32 b = b.toNat := by
      unfold ofInt32
      omega
    have hlane : a i % 2 ^ 32 < 2 ^ 31 ∧ toInt32 (a i) = ((a i % 2 ^ 32 : Nat) : Int) := by
      have := ha i
      unfold toInt32 at this ⊢
      split at this
      · rename_i h
        rw [if_pos h]
        exact ⟨h, rfl⟩
      · have : a i % 2 ^ 32 < 2 ^ 32 := Nat.mod_lt _ (by norm_num)
        omega
    show toInt32 (if ofInt32 b > 31 then 0
      else (a i % 2 ^ 32) / 2 ^ ofInt32 b) = _
    rw [hcount, if_neg (by omega)]
    show _ = toInt32 (a i) >>> b.toNat
    rw [hlane.2, Int.shiftRight_eq_div_pow]
    have hle : a i % 2 ^ 32 / 2 ^ b.toNat ≤ a i % 2 ^ 32 := Nat.div_le_self _ _
    have hsmall : a i % 2 ^ 32 / 2 ^ b.toNat < 2 ^ 31 := by omega
    unfold toInt32
    rw [Nat.mod_eq_of_lt (by omega), if_pos hsmall]
    push_cast
    rfl

/-! ## Indexed stores: the last write wins -/

theorem foldl_writes_other {μ κ β ι : Type} (write : μ → κ → β → μ) (read : μ → κ → β)
    (hother : ∀ m k k' x, k' ≠ k → read (write m k x) k' = read m k')
    (key : ι → κ) (val : ι → β) (p : κ) :
    ∀ (l : List ι) (m : μ), (∀ j ∈ l, key j ≠ p) →
      read (l.foldl (fun m i => write m (key i) (val i)) m) p = read m p := by
  intro l
  induction l with
  | nil => intro m _; rfl
  | cons i rest ih =>
    intro m h
    rw [List.foldl_cons, ih _ (fun j hj => h j (List.mem_cons_of_mem _ hj))]
    exact hother m (key i) p (val i) (fun e => h i (List.mem_cons_self _ _) e.symm)

theorem foldl_writes_last {μ κ β ι : Type} (write : μ → κ → β → μ) (read : μ → κ → β)
    (key : ι → κ) (val : ι → β)
    (hsame : ∀ m i, read (write m (key i) (val i)) (key i) = val i)
    (hother : ∀ m k k' x, k' ≠ k → read (write m k x) k' = read m k')
    (l1 l2 : List ι) (j : ι) (m : μ) (hlater : ∀ j' ∈ l2, key j' ≠ key j) :
    read ((l1 ++ j :: l2).foldl (fun m i => write m (key i) (val i)) m) (key j) = val j := by
  rw [List.foldl_append, List.foldl_cons,
    foldl_writes_other write read hother key val (key j) l2 _ hlater]
  exact hsame _ j

theorem finRange_split {n : Nat} (j : Fin n) :
    ∃ l1 l2, List.finRange n = l1 ++ j :: l2 ∧ ∀ j' ∈ l2, j < j' := by
  obtain ⟨l1, l2, h⟩ := List.append_of_mem (List.mem_finRange j)
  refine ⟨l1, l2, h, ?_⟩
  have hp := List.pairwise_lt_finRange n
  rw [h, List.pairwise_append] at hp
  exact (List.pairwise_cons.mp hp.2.1).1

/-- C16: with pairwise distinct offsets, the indexed `store(a, base, offsets)`
followed by the indexed `load(base, offsets)` returns `a` lane for lane, and the
store leaves every position that is not `base + offsets[i]` for some lane as it
was. -/
theorem VV_store_then_load {dim : Nat} {T : Type} (m : Buf T) (a : VV dim T) (base : Int)
    (offsets : VV dim Int) (hinj : ∀ i j, offsets i = offsets j → i = j) :
    (∀ i, load_VV (store_VV m a base offsets) base offsets i = a i) ∧
    (∀ q : Int, (∀ i, base + offsets i ≠ q) → store_VV m a base offsets q = m q) := by
  have hother : ∀ (m : Buf T) (k k' : Int) (x : T), k' ≠ k →
      (fun (m : Buf T) (k : Int) => m k) (Function.update m k x) k'
        = (fun (m : Buf T) (k : Int) => m k) m k' := by
    intro m k k' x hne
    exact Function.update_noteq hne x m
  constructor
  · intro i
    obtain ⟨l1, l2, hsplit, hl2⟩ := finRange_split i
    show store_VV m a base offsets (base + offsets i) = a i
    unfold store_VV
    rw [hsplit]
    exact foldl_writes_last (fun (m : Buf T) (k : Int) (x : T) => Function.update m k x)
      (fun (m : Buf T) (k : Int) => m k) (fun i => base + offsets i) a
      (fun m i => Function.update_same _ _ _) hother l1 l2 i m
      (fun j' hj' e => by
        have h1 := hl2 j' hj'
        have h2 := hinj j' i (by simpa using e)
        rw [h2] at h1
        exact lt_irrefl _ h1)
  · intro q hq
    unfold store_VV
    exact foldl_writes_other (fun (m : Buf T) (k : Int) (x : T) => Function.update m k x)
      (fun (m : Buf T) (k : Int) => m k) hother (fun i => base + offsets i) a q
      (List.finRange dim) m (fun j _ => hq j)

/-- C16 at a concrete input: three lanes stored at offsets 2, 0, 1 from address 10. -/
theorem VV_store_then_load_witness :
    (∀ i, load_VV (store_VV (fun _ => 0) ![7, 8, 9] 10 ![2, 0, 1]) 10 ![2, 0, 1] i
      = (![7, 8, 9] : Fin 3 → Nat) i) ∧
    (∀ q : Int, (∀ i, 10 + (![2, 0, 1] : Fin 3 → Int) i ≠ q) →
      store_VV (fun _ => 0) (![7, 8, 9] : Fin 3 → Nat) 10 ![2, 0, 1] q = (fun _ => 0) q) :=
  VV_store_then_load (fun _ => 0) ![7, 8, 9] 10 ![2, 0, 1] (by decide)

/-! ## Conversion from `float` to `int` -/

theorem roundShiftNearestEven_spec (M k : Nat) :
    (-(1 / 2 : ℚ) ≤ (roundShiftNearestEven M k : ℚ) - (M : ℚ) / 2 ^ k ∧
      (roundShiftNearestEven M k : ℚ) - (M : ℚ) / 2 ^ k ≤ 1 / 2) ∧
    (((roundShiftNearestEven M k : ℚ) - (M : ℚ) / 2 ^ k = 1 / 2 ∨
      (roundShiftNearestEven M k : ℚ) - (M : ℚ) / 2 ^ k = -(1 / 2)) →
      roundShiftNearestEven M k % 2 = 0) := by
  have hP : 0 < 2 ^ k := Nat.pow_pos (by norm_num)
  have hPq : (0 : ℚ) < 2 ^ k := by positivity
  have hdm := Nat.div_add_mod M (2 ^ k)
  have hr := Nat.mod_lt M hP
  have hdmq : (M : ℚ) = 2 ^ k * (M / 2 ^ k : Nat) + (M % 2 ^ k : Nat) := by
    exact_mod_cast hdm.symm
  have hx : (M : ℚ) / 2 ^ k = (M / 2 ^ k : Nat) + ((M % 2 ^ k : Nat) : ℚ) / 2 ^ k := by
    field_simp
    linarith
  have hfrac0 : (0 : ℚ) ≤ ((M % 2 ^ k : Nat) : ℚ) / 2 ^ k := by positivity
  unfold roundShiftNearestEven
  by_cases hup : 2 * (M % 2 ^ k) > 2 ^ k ∨ (2 * (M % 2 ^ k) = 2 ^ k ∧ (M / 2 ^ k) % 2 = 1)
  · rw [if_pos hup]
    have hge : 2 ^ k ≤ 2 * (M % 2 ^ k) := by omega
    have hgeq : (2 : ℚ) ^ k ≤ 2 * ((M % 2 ^ k : Nat) : ℚ) := by exact_mod_cast hge
    have hltq : ((M % 2 ^ k : Nat) : ℚ) < 2 ^ k := by exact_mod_cast hr
    have hfrac1 : (1 / 2 : ℚ) ≤ ((M % 2 ^ k : Nat) : ℚ) / 2 ^ k := by
      rw [le_div_iff₀ hPq]
      linarith
    have hfrac2 : ((M % 2 ^ k : Nat) : ℚ) / 2 ^ k < 1 := by
      rw [div_lt_iff₀ hPq]
      linarith
    push_cast
    rw [hx]
    refine ⟨⟨by linarith, by linarith⟩, fun htie => ?_⟩
    have hhalf : ((M % 2 ^ k : Nat) : ℚ) / 2 ^ k = 1 / 2 := by
      rcases htie with h | h
      · linarith
      · linarith
    have heq : 2 * (M % 2 ^ k) = 2 ^ k := by
      rw [div_eq_iff hPq.ne'] at hhalf
      have : (2 : ℚ) * ((M % 2 ^ k : Nat) : ℚ) = 2 ^ k := by linarith
      exact_mod_cast this
    omega
  · rw [if_neg hup]
    have hle : 2 * (M % 2 ^ k) ≤ 2 ^ k := by omega
    have hleq : 2 * ((M % 2 ^ k : Nat) : ℚ) ≤ (2 : ℚ) ^ k := by exact_mod_cast hle
    have hfrac1 : ((M % 2 ^ k : Nat) : ℚ) / 2 ^ k ≤ 1 / 2 := by
      rw [div_le_iff₀ hPq]
      linarith
    rw [hx]
    refine ⟨⟨by linarith, by linarith⟩, fun htie => ?_⟩
    have hhalf : ((M % 2 ^ k : Nat) : ℚ) / 2 ^ k = 1 / 2 := by
      rcases htie with h | h
      · linarith
      · linarith
    have heq : 2 * (M % 2 ^ k) = 2 ^ k := by
      rw [div_eq_iff hPq.ne'] at hhalf
      have : (2 : ℚ) * ((M % 2 ^ k : Nat) : ℚ) = 2 ^ k := by linarith
      exact_mod_cast this
    omega

theorem isNearestTiesEven_unique (v : ℚ) (n n' : Int)
    (h : IsNearestTiesEven v n) (h' : IsNearestTiesEven v n') : n = n' := by
  obtain ⟨hb, ht⟩ := h
  obtain ⟨hb', ht'⟩ := h'
  have h1 := abs_le.mp hb
  have h2 := abs_le.mp hb'
  have hd1 : ((n - n' : Int) : ℚ) ≤ 1 := by push_cast; linarith
  have hd2 : (-1 : ℚ) ≤ ((n - n' : Int) : ℚ) := by push_cast; linarith
  have hd1' : n - n' ≤ 1 := by exact_mod_cast hd1
  have hd2' : -1 ≤ n - n' := by exact_mod_cast hd2
  by_contra hne
  have hcases : n = n' + 1 ∨ n' = n + 1 := by omega
  rcases hcases with e | e
  · have e' : (n : ℚ) = n' + 1 := by exact_mod_cast e
    have t1 : |(n : ℚ) - v| = 1 / 2 := by
      rw [abs_eq (by norm_num)]
      left
      linarith
    have t2 : |(n' : ℚ) - v| = 1 / 2 := by
      rw [abs_eq (by norm_num)]
      right
      linarith
    have := ht t1
    have := ht' t2
    omega
  · have e' : (n' : ℚ) = n + 1 := by exact_mod_cast e
    have t1 : |(n : ℚ) - v| = 1 / 2 := by
      rw [abs_eq (by norm_num)]
      right
      linarith
    have t2 : |(n' : ℚ) - v| = 1 / 2 := by
      rw [abs_eq (by norm_num)]
      left
      linarith
    have := ht t1
    have := ht' t2
    omega

theorem cvtps2dq_nearest (w : Nat) :
    ∃ r : Int, IsNearestTiesEven (float32Value w) r ∧
      (isFinite32 w → (-2 ^ 31 ≤ r ∧ r < 2 ^ 31) → cvtps2dq w = ofInt32 r) := by
  have hmag : ∃ N : Nat,
      N = (if 0 ≤ ulpExp32 w then significand32 w * 2 ^ (ulpExp32 w).toNat
        else roundShiftNearestEven (significand32 w) (-ulpExp32 w).toNat) ∧
      ∃ x : ℚ, x = (if 0 ≤ ulpExp32 w then (significand32 w : ℚ) * 2 ^ (ulpExp32 w).toNat
        else (significand32 w : ℚ) / 2 ^ (-ulpExp32 w).toNat) ∧
      (-(1 / 2 : ℚ) ≤ (N : ℚ) - x ∧ (N : ℚ) - x ≤ 1 / 2) ∧
      (((N : ℚ) - x = 1 / 2 ∨ (N : ℚ) - x = -(1 / 2)) → N % 2 = 0) := by
    by_cases hE : 0 ≤ ulpExp32 w
    · refine ⟨_, rfl, _, rfl, ?_⟩
      rw [if_pos hE, if_pos hE]
      push_cast
      rw [sub_self]
      refine ⟨⟨by norm_num, by norm_num⟩, fun h => ?_⟩
      rcases h with h | h <;> norm_num at h
    · refine ⟨_, rfl, _, rfl, ?_⟩
      rw [if_neg hE, if_neg hE]
      exact roundShiftNearestEven_spec _ _
  obtain ⟨N, hN, x, hx, hbound, htie⟩ := hmag
  have hval : float32Value w = (if signBit32 w = 1 then -1 else 1) * x := by
    rw [hx]
    rfl
  by_cases hs : signBit32 w = 1
  · refine ⟨-(N : Int), ⟨?_, ?_⟩, ?_⟩
    · rw [hval, if_pos hs, abs_le]
      push_cast
      constructor <;> linarith [hbound.1, hbound.2]
    · intro h
      rw [hval, if_pos hs, abs_eq (by norm_num)] at h
      push_cast at h
      have : N % 2 = 0 := by
        apply htie
        rcases h with h | h
        · right; linarith
        · left; linarith
      omega
    · intro hfin hfit
      unfold cvtps2dq
      rw [if_neg hfin]
      simp only
      rw [← hN, if_pos hs, if_pos hfit]
  · refine ⟨(N : Int), ⟨?_, ?_⟩, ?_⟩
    · rw [hval, if_neg hs, abs_le]
      push_cast
      constructor <;> linarith [hbound.1, hbound.2]
    · intro h
      rw [hval, if_neg hs, abs_eq (by norm_num)] at h
      push_cast at h
      have : N % 2 = 0 := by
        apply htie
        rcases h with h | h
        · left; linarith
        · right; linarith
      omega
    · intro hfin hfit
      unfold cvtps2dq
      rw [if_neg hfin]
      simp only
      rw [← hN, if_neg hs, if_pos hfit]

theorem float32Value_two_and_a_half : float32Value 0x40200000 = 5 / 2 := by
  have h1 : signBit32 0x40200000 = 0 := by decide
  have h2 : ulpExp32 0x40200000 = -22 := by decide
  have h3 : significand32 0x40200000 = 10485760 := by decide
  have h4 : (-(-22 : Int)).toNat = 22 := by decide
  unfold float32Value
  rw [h1, h2, h3, h4]
  norm_num

/-- C15, the claim refuted: `2.5` (the pattern `0x40200000`) rounds to `3` when
halves go away from zero, and `3` fits in `int32`, but `cast<int32>` on
`float32x8` returns `2`; the virtual vector cast on `0x3FD9999A`, the `float`
nearest to `1.7`, returns `1`. -/
theorem cast_does_not_round_half_away :
    (float32Value 0x40200000 = 5 / 2 ∧ IsNearestTiesAway (float32Value 0x40200000) 3 ∧
      toInt32 (cast_int32_float32x8 (fun _ => 0x40200000) 0) = 2) ∧
    (cast_VV_int32_float32 (fun _ : Fin 8 => 0x3FD9999A) = some (fun _ => 1)) ∧
    ¬ (∀ (v : float32x8) (i : Fin 8) (n : Int), isFinite32 (v i) →
        IsNearestTiesAway (float32Value (v i)) n → (-2 ^ 31 ≤ n ∧ n < 2 ^ 31) →
        toInt32 (cast_int32_float32x8 v i) = n) := by
  have haway : IsNearestTiesAway (float32Value 0x40200000) 3 := by
    rw [float32Value_two_and_a_half]
    unfold IsNearestTiesAway
    norm_num [abs_of_pos]
  have hcode : toInt32 (cast_int32_float32x8 (fun _ => 0x40200000) 0) = 2 := by
    show toInt32 (cvtps2dq 0x40200000) = 2
    decide
  refine ⟨⟨float32Value_two_and_a_half, haway, hcode⟩, ?_, ?_⟩
  · unfold cast_VV_int32_float32 VV.tabulate
    have h : cppFloatToInt 0x3FD9999A = some 1 := by decide
    rw [dif_pos (fun _ => by show (cppFloatToInt 0x3FD9999A).isSome = true; decide)]
    congr 1
    funext i
    simp [h]
  · intro h
    have := h (fun _ => 0x40200000) 0 3 (by show isFinite32 0x40200000; decide) haway
      (by norm_num)
    rw [hcode] at this
    norm_num at this

/-- C15 as amended: for a finite `float` lane whose value rounded to the nearest
integer, halves going to the even neighbour, fits in `int32`, `cast<int32>` on
`float32x8` returns that integer. -/
theorem cast_int32_float32x8_rounds_half_even (v : float32x8) (i : Fin 8) (n : Int)
    (hfin : isFinite32 (v i)) (hn : IsNearestTiesEven (float32Value (v i)) n)
    (hfit : -2 ^ 31 ≤ n ∧ n < 2 ^ 31) :
    toInt32 (cast_int32_float32x8 v i) = n := by
  obtain ⟨r, hr, hcode⟩ := cvtps2dq_nearest (v i)
  have hrn : r = n := isNearestTiesEven_unique _ r n hr hn
  subst hrn
  show toInt32 (cvtps2dq (v i)) = r
  rw [hcode hfin hfit]
  exact toInt32_ofInt32 r hfit.1 hfit.2

/-- C15 as amended, at a concrete input: `2.5` is converted to `2`. -/
theorem cast_int32_float32x8_rounds_half_even_witness :
    toInt32 (cast_int32_float32x8 (fun _ => 0x40200000) 0) = 2 :=
  cast_int32_float32x8_rounds_half_even (fun _ => 0x40200000) 0 2
    (by show isFinite32 0x40200000; decide)
    (by
      show IsNearestTiesEven (float32Value 0x40200000) 2
      rw [float32Value_two_and_a_half]
      unfold IsNearestTiesEven
      norm_num [abs_of_neg])
    (by norm_num)

end taichi.Tlang
